import Mathlib

/-
  Verification of the cf-qemu-post trace post-processing pipeline.

  This file gives a shallow embedding, in Lean 4, of the Rust sources of the
  repository (src/log_parser.rs, src/memory_access.rs, src/bin/cache.rs,
  src/bin/log_merger.rs, src/bin/rowclone.rs, src/main.rs) and proves or
  refutes the specified properties of the pipeline stages: the binary and
  text record codecs, the k-way stream merger, the set-associative LRU
  cache with page invalidation, the bubble computation, and the row-clone
  copy-pattern detector.

  Machine integers are modelled as Nat with explicit reduction modulo 2^64
  at the operations where Rust u64 arithmetic can wrap; Rust release-mode
  wrapping semantics is used (shift amounts are masked to the low 6 bits,
  additions and subtractions wrap modulo 2^64).  Fallible operations
  (vector indexing that can panic, assertions) are modelled with Option,
  where `none` stands for a panic / failed assertion.
-/
/-! ## u64 arithmetic helpers -/
/-- The modulus of Rust `u64` arithmetic. -/
def U64 : Nat := 2 ^ 64

/-- Wrapping `u64` addition. -/
def u64add (a b : Nat) : Nat := (a + b) % U64

/-- Wrapping `u64` subtraction (both arguments are assumed reduced, i.e. `< 2^64`). -/
def u64sub (a b : Nat) : Nat := (a + U64 - b) % U64

/-- `u64` left shift; Rust (release mode) masks the shift amount to the low 6 bits. -/
def u64shl (a s : Nat) : Nat := (a <<< (s % 64)) % U64

/-! ## LogRecord and the binary codec (src/log_parser.rs)

The Rust struct is

    #[repr(C)]
    pub struct LogRecord { insn_count: u64, cpu: u8, store: u8, size: u8, address: u64 }

whose `repr(C)` layout is: `insn_count` at bytes 0..8 (little endian on the
reference platform), `cpu` at byte 8, `store` at byte 9, `size` at byte 10,
5 padding bytes at 11..16, `address` at bytes 16..24; total 24 bytes.
`serialize` copies the raw struct bytes (the padding bytes are copied as
well but carry no information; we model them as zero), `deserialize` reads
the struct back from the same layout, ignoring the padding. -/
structure LogRecord where
  insn_count : Nat
  cpu : Nat
  store : Nat
  size : Nat
  address : Nat
deriving DecidableEq, Repr

/-- Little-endian byte decomposition: `toBytesLE k n` is the `k` low-order
bytes of `n`, least significant first. -/
def toBytesLE : Nat → Nat → List Nat
  | 0, _ => []
  | k + 1, n => n % 256 :: toBytesLE k (n / 256)

/-- Recompose a little-endian byte list into a number. -/
def fromBytesLE : List Nat → Nat
  | [] => 0
  | b :: bs => b + 256 * fromBytesLE bs

/-- `LogRecord::serialize`: the 24-byte `repr(C)` image of the record
(padding bytes at offsets 11..15 modelled as 0). -/
def LogRecord.serialize (r : LogRecord) : List Nat :=
  toBytesLE 8 r.insn_count ++ [r.cpu, r.store, r.size, 0, 0, 0, 0, 0] ++ toBytesLE 8 r.address

/-- `LogRecord::deserialize`: read the fields back from the 24-byte buffer
at their `repr(C)` offsets. -/
def LogRecord.deserialize (buf : List Nat) : LogRecord :=
  { insn_count := fromBytesLE (buf.take 8)
    cpu := buf.getD 8 0
    store := buf.getD 9 0
    size := buf.getD 10 0
    address := fromBytesLE ((buf.drop 16).take 8) }

/-! ## Text codec for LogRecord and MemoryAccess
(src/log_parser.rs `Display`/`FromStr`, src/memory_access.rs)

Text lines are modelled as `List Char`.  Parse outcomes distinguish a
returned error value from a Rust panic (`expect` / `unwrap`). -/
/-- Outcome of a fallible Rust text-parsing function: a returned value, a
returned error (`Err`), or a panic (`expect` on a failed parse). -/
inductive POut (α : Type) where
  | ok : α → POut α
  | err : POut α
  | panic : POut α
deriving DecidableEq, Repr

/-- `str::split(',')`: split a character list at every comma (empty pieces kept). -/
def splitComma : List Char → List (List Char)
  | [] => [[]]
  | c :: rest =>
    if c = ',' then [] :: splitComma rest
    else
      match splitComma rest with
      | p :: ps => (c :: p) :: ps
      | [] => [[c]]

/-- `str::trim`: drop whitespace from both ends. -/
def trimChars (l : List Char) : List Char :=
  ((l.dropWhile Char.isWhitespace).reverse.dropWhile Char.isWhitespace).reverse

/-- Decimal digit value of a character, if it is one. -/
def decDigit (c : Char) : Option Nat :=
  if c.isDigit then some (c.toNat - 48) else none

/-- Hex digit value of a character, if it is one (both cases accepted,
as by Rust `from_str_radix(_, 16)`). -/
def hexDigit (c : Char) : Option Nat :=
  if c.isDigit then some (c.toNat - 48)
  else if 97 ≤ c.toNat ∧ c.toNat ≤ 102 then some (c.toNat - 87)
  else if 65 ≤ c.toNat ∧ c.toNat ≤ 70 then some (c.toNat - 55)
  else none

/-- Accumulate digits of the given base; `none` if any character is not a digit. -/
def parseDigits (digit : Char → Option Nat) (base : Nat) : Nat → List Char → Option Nat
  | acc, [] => some acc
  | acc, c :: rest =>
    match digit c with
    | some d => parseDigits digit base (acc * base + d) rest
    | none => none

/-- Rust `FromStr` for an unsigned integer of `bits` bits: an optional `+`
sign followed by at least one decimal digit, value in range. -/
def parseUInt (bits : Nat) (l : List Char) : Option Nat :=
  let l := match l with
    | '+' :: rest => rest
    | l => l
  match l with
  | [] => none
  | _ =>
    match parseDigits decDigit 10 0 l with
    | some n => if n < 2 ^ bits then some n else none
    | none => none

/-- `str::trim_start_matches("0x")`: strip every leading repetition of `0x`. -/
def strip0x : List Char → List Char
  | '0' :: 'x' :: rest => strip0x rest
  | l => l

/-- `u64::from_str_radix(s.trim_start_matches("0x"), 16)`. -/
def parseHexU64 (l : List Char) : Option Nat :=
  let l := strip0x l
  let l := match l with
    | '+' :: rest => rest
    | l => l
  match l with
  | [] => none
  | _ =>
    match parseDigits hexDigit 16 0 l with
    | some n => if n < 2 ^ 64 then some n else none
    | none => none

/-- `impl FromStr for LogRecord` (src/log_parser.rs): split the trimmed line
on commas; error unless there are exactly 5 fields and every field parses
(`?` propagation, no panics). -/
def logRecordFromStr (l : List Char) : POut LogRecord :=
  let parts := splitComma (trimChars l)
  if parts.length ≠ 5 then POut.err
  else
    match parseUInt 64 (parts.getD 0 []), parseUInt 8 (parts.getD 1 []),
        parseUInt 8 (parts.getD 2 []), parseUInt 8 (parts.getD 3 []),
        parseHexU64 (parts.getD 4 []) with
    | some a, some b, some c, some d, some e =>
      POut.ok { insn_count := a, cpu := b, store := c, size := d, address := e }
    | _, _, _, _, _ => POut.err

/-! ### MemoryAccess (src/memory_access.rs) -/
/-- `MemRecord` of src/memory_access.rs. -/
structure MemRecord where
  insn_count : Nat
  address : Nat
  store : Bool
deriving DecidableEq, Repr

/-- `RowcloneRecord` of src/memory_access.rs. -/
structure RowcloneRecord where
  insn_count : Nat
  from_addr : Nat
  to_addr : Nat
deriving DecidableEq, Repr

/-- `MemoryAccess` of src/memory_access.rs: a regular access or a detected copy. -/
inductive MemoryAccess where
  | Regular : MemRecord → MemoryAccess
  | Rowclone : RowcloneRecord → MemoryAccess
deriving DecidableEq, Repr

/-- Decimal rendering of a number, as Rust `{}` for unsigned integers. -/
def decChars (n : Nat) : List Char := Nat.toDigits 10 n

/-- Rust `{:016x}`: lowercase hex, zero padded on the left to 16 digits. -/
def hex16 (n : Nat) : List Char :=
  let ds := Nat.toDigits 16 n
  List.replicate (16 - ds.length) '0' ++ ds

/-- `impl Display for MemRecord`: `"{insn},-1,0x{addr:016x}"` for a store,
`"{insn},0x{addr:016x}"` for a load. -/
def MemRecord.display (r : MemRecord) : List Char :=
  if r.store then decChars r.insn_count ++ [',', '-', '1', ','] ++ ['0', 'x'] ++ hex16 r.address
  else decChars r.insn_count ++ [','] ++ ['0', 'x'] ++ hex16 r.address

/-- `impl Display for RowcloneRecord`: `"{insn},0x{from:016x},0x{to:016x}"`. -/
def RowcloneRecord.display (r : RowcloneRecord) : List Char :=
  decChars r.insn_count ++ [',', '0', 'x'] ++ hex16 r.from_addr ++ [',', '0', 'x'] ++ hex16 r.to_addr

/-- `impl Display for MemoryAccess`: delegate to the variant. -/
def MemoryAccess.display : MemoryAccess → List Char
  | MemoryAccess.Regular r => r.display
  | MemoryAccess.Rowclone r => r.display

/-- `parse_hex_addr` of src/memory_access.rs: `from_str_radix(..,16).expect(..)` —
a parse failure is a panic, not an error. -/
def parseHexAddr (l : List Char) : POut Nat :=
  match parseHexU64 l with
  | some n => POut.ok n
  | none => POut.panic

/-- `impl FromStr for MemoryAccess` (src/memory_access.rs): split the trimmed
line on commas; `parts[0].parse::<u64>().expect("fail")` (panic on failure);
4 fields parse as a Rowclone (fields 1 and 2 as hex, field 3 ignored),
3 fields as a store, 2 fields as a load, anything else is an error.
Hex fields go through `parse_hex_addr`, which panics on failure. -/
def memoryAccessFromStr (l : List Char) : POut MemoryAccess :=
  let parts := splitComma (trimChars l)
  match parseUInt 64 (parts.getD 0 []) with
  | none => POut.panic
  | some insn =>
    if parts.length = 4 then
      match parseHexAddr (parts.getD 1 []), parseHexAddr (parts.getD 2 []) with
      | POut.ok a, POut.ok b =>
        POut.ok (MemoryAccess.Rowclone { insn_count := insn, from_addr := a, to_addr := b })
      | _, _ => POut.panic
    else if parts.length = 3 then
      match parseHexAddr (parts.getD 2 []) with
      | POut.ok a => POut.ok (MemoryAccess.Regular { insn_count := insn, address := a, store := true })
      | _ => POut.panic
    else if parts.length = 2 then
      match parseHexAddr (parts.getD 1 []) with
      | POut.ok a => POut.ok (MemoryAccess.Regular { insn_count := insn, address := a, store := false })
      | _ => POut.panic
    else POut.err

/-! ## Bubble computation (src/bin/cache.rs `ramulator_mem_format`, src/main.rs) -/
/-- The bubble of `ramulator_mem_format` (src/bin/cache.rs):
`rec.insn_count - prev_insn_count`, a raw `u64` subtraction with no clamp
(wrapping in release mode, panicking in debug mode, when the counter goes
backward). -/
def ramulatorBubble (insn prev : Nat) : Nat := u64sub insn prev

/-- `ramulator_mem_format` (src/bin/cache.rs): the emitted line,
`"{bubble} -1 0x{addr:016x}"` for a store and `"{bubble} 0x{addr:016x}"`
for a load. -/
def ramulator_mem_format (rec : MemRecord) (prev : Nat) : List Char :=
  if rec.store then
    decChars (ramulatorBubble rec.insn_count prev) ++ [' ', '-', '1', ' ', '0', 'x'] ++ hex16 rec.address
  else
    decChars (ramulatorBubble rec.insn_count prev) ++ [' ', '0', 'x'] ++ hex16 rec.address

/-- `bubble_count` of the superseded src/main.rs stage: clamped to 1 when
the instruction counter goes backward. -/
def mainBubbleCount (prev insn : Nat) : Nat := if prev > insn then 1 else insn - prev

/-! ## Stream merger (src/bin/log_merger.rs)

`main` keeps a `BinaryHeap<Reverse<(LogRecord, usize)>>` holding at most one
buffered record per live source, initialized with the first record of each
source; it repeatedly pops the minimum and refills the heap from the popped
record's source (`push_next_record`), so the heap holds exactly the heads of
the not-yet-exhausted sources.  `Ord` for `LogRecord` compares only
`insn_count`, and the tuple order then compares the source index, so the
popped element is the buffered record minimal by `(insn_count, source
index)` — a total order, since the indices in the heap are distinct.  We
model the merge loop directly over the list of per-source record streams:
each step selects the nonempty source whose head is minimal by
`(insn_count, index)` and emits that head. -/
/-- Select the source whose head is minimal by `(insn_count, source index)`:
returns `(index, head, tail of that source)`; `none` when every source is
exhausted.  On equal `insn_count` the lower index wins (strict `<` below). -/
def bestSource : List (List LogRecord) → Option (Nat × LogRecord × List LogRecord)
  | [] => none
  | [] :: rest => (bestSource rest).map (fun p => (p.1 + 1, p.2))
  | (r :: t) :: rest =>
    match bestSource rest with
    | none => some (0, r, t)
    | some (i, r', t') =>
      if r'.insn_count < r.insn_count then some (i + 1, r', t') else some (0, r, t)

/-- Total number of records over all sources. -/
def totalLen (srcs : List (List LogRecord)) : Nat := (srcs.map List.length).sum

/-- The merge loop: pop the minimal buffered record, emit it, refill from
that source; fuel-driven (the fuel is the total record count). -/
def kmergeAux : Nat → List (List LogRecord) → List LogRecord
  | 0, _ => []
  | fuel + 1, srcs =>
    match bestSource srcs with
    | none => []
    | some (i, r, t) => r :: kmergeAux fuel (srcs.set i t)

/-- The merged stream of src/bin/log_merger.rs `main`. -/
def kmerge (srcs : List (List LogRecord)) : List LogRecord := kmergeAux (totalLen srcs) srcs

/-- A stream is non-decreasing in `insn_count`. -/
def SortedInsn (l : List LogRecord) : Prop :=
  l.Pairwise (fun a b => a.insn_count ≤ b.insn_count)

instance (l : List LogRecord) : Decidable (SortedInsn l) := by
  unfold SortedInsn
  infer_instance

/-! ## Set-associative LRU cache (src/bin/cache.rs)

`CacheSet` holds `associativity` optional tags (`lines`) and the LRU order
(`lru_order`, least-recently-used first).  `Vec::remove(0)` on an empty
vector panics, so `access` returns `Option`; `none` models that panic
(unreachable from well-formed states).  `Cache::access` computes
`block_addr = address / block_size` and `set_index = block_addr % sets.len()`;
a zero `block_size` or an empty `sets` vector panics in Rust
(division/remainder by zero), modelled as `none`. -/
structure CacheSet where
  lines : List (Option Nat)
  lru_order : List Nat
deriving DecidableEq, Repr

/-- `CacheSet::new` of src/bin/cache.rs: all lines free, empty LRU order. -/
def CacheSet.new (assoc : Nat) : CacheSet :=
  { lines := List.replicate assoc none, lru_order := [] }

/-- `Vec::iter().position(pred)`: index of the first element satisfying the
predicate. -/
def listPos {α : Type} (p : α → Bool) : List α → Option Nat
  | [] => none
  | x :: xs => if p x then some 0 else (listPos p xs).map (· + 1)

/-- `CacheSet::access` of src/bin/cache.rs.  Hit: move the slot to the MRU
end.  Miss with a free slot: fill it and append to the LRU order.  Miss
with no free slot: evict the LRU front slot, overwrite it, move it to the
MRU end (panics — `none` — if the LRU order is empty). -/
def CacheSet.access (s : CacheSet) (tag : Nat) : Option (Bool × CacheSet) :=
  match listPos (fun line => decide (line = some tag)) s.lines with
  | some pos =>
    some (true, { lines := s.lines,
                  lru_order := (s.lru_order.filter (fun i => decide (i ≠ pos))) ++ [pos] })
  | none =>
    match listPos (fun line => decide (line = none)) s.lines with
    | some free_pos =>
      some (false, { lines := s.lines.set free_pos (some tag),
                     lru_order := s.lru_order ++ [free_pos] })
    | none =>
      match s.lru_order with
      | [] => none
      | evict_index :: rest =>
        some (false, { lines := s.lines.set evict_index (some tag),
                       lru_order := rest ++ [evict_index] })

/-- `CacheSet::invalidate` of src/bin/cache.rs: clear the slot holding the
exact tag (if present) and remove it from the LRU order. -/
def CacheSet.invalidate (s : CacheSet) (tag : Nat) : CacheSet :=
  match listPos (fun line => decide (line = some tag)) s.lines with
  | some pos =>
    { lines := s.lines.set pos none,
      lru_order := s.lru_order.filter (fun i => decide (i ≠ pos)) }
  | none => s

structure Cache where
  block_size : Nat
  sets : List CacheSet
deriving DecidableEq, Repr

/-- `Cache::new` of src/bin/cache.rs: `(size / block_size) / associativity`
sets of the given associativity. -/
def Cache.new (size block_size assoc : Nat) : Cache :=
  { block_size := block_size
    sets := List.replicate ((size / block_size) / assoc) (CacheSet.new assoc) }

/-- `Cache::access` of src/bin/cache.rs: route the block address to set
`block_addr % sets.len()`; `none` models the Rust panics for a zero block
size or zero sets. -/
def Cache.access (c : Cache) (address : Nat) : Option (Bool × Cache) :=
  if c.block_size = 0 then none
  else
    let block_addr := address / c.block_size
    let set_index := block_addr % c.sets.length
    match c.sets.get? set_index with
    | none => none
    | some s =>
      (s.access block_addr).map
        (fun p => (p.1, { block_size := c.block_size, sets := c.sets.set set_index p.2 }))

/-- One step of `Cache::invalidate_page`'s loop body: invalidate one block
address in its set.  (With an empty `sets` vector the Rust code would
panic on `% 0`; we leave the cache unchanged, and every theorem about
invalidation assumes a nonempty `sets`.) -/
def Cache.invalidateBlock (c : Cache) (b : Nat) : Cache :=
  let set_index := b % c.sets.length
  match c.sets.get? set_index with
  | none => c
  | some s =>
    { block_size := c.block_size, sets := c.sets.set set_index (s.invalidate b) }

/-- `Cache::invalidate_page` of src/bin/cache.rs: assert 4096-alignment
(`none` models the failed assertion), then invalidate every block address
from `address / block_size` to `(address + 4095) / block_size` inclusive. -/
def Cache.invalidate_page (c : Cache) (address : Nat) : Option Cache :=
  if address % 4096 ≠ 0 then none
  else if c.block_size = 0 then none
  else
    let start_block := address / c.block_size
    let end_block := (address + 4096 - 1) / c.block_size
    some ((List.range' start_block (end_block + 1 - start_block)).foldl Cache.invalidateBlock c)

/-- Run a sequence of accesses against one cache set, collecting the
hit/miss outcomes. -/
def CacheSet.accessSeq (s : CacheSet) : List Nat → Option (List Bool × CacheSet)
  | [] => some ([], s)
  | t :: ts =>
    match s.access t with
    | none => none
    | some (b, s1) =>
      match s1.accessSeq ts with
      | none => none
      | some (bs, s2) => some (b :: bs, s2)

/-! ### C5: LRU fill, hit and eviction behaviour of `CacheSet::access` -/
/-- The set of associativity `k` after missing on the distinct tags `done`
starting from empty: the first `done.length` slots hold the tags in order,
the rest are free, and the LRU order is `0, 1, …` (insertion order). -/
def filledSet (k : Nat) (done : List Nat) : CacheSet :=
  ⟨done.map some ++ List.replicate (k - done.length) none, List.range done.length⟩

/-! ### C8: the LRU order is a permutation of the occupied slot indices -/
/-- The C8 invariant on one cache set: the LRU order is duplicate-free and
contains exactly the occupied slot indices. -/
def SetInv (s : CacheSet) : Prop :=
  s.lru_order.Nodup ∧ ∀ j, j ∈ s.lru_order ↔ ∃ t, s.lines.get? j = some (some t)

/-- Cache states reachable from `Cache::new` by non-panicking `access` and
`invalidate_page` calls. -/
inductive CacheReachable : Cache → Prop where
  | base (size block_size assoc : Nat) : CacheReachable (Cache.new size block_size assoc)
  | step_access (c : Cache) (a : Nat) (b : Bool) (c2 : Cache) :
      CacheReachable c → c.access a = some (b, c2) → CacheReachable c2
  | step_invalidate (c : Cache) (a : Nat) (c2 : Cache) :
      CacheReachable c → c.invalidate_page a = some c2 → CacheReachable c2

/-! ### C6: `invalidate_page` clears exactly the page's blocks -/
/-- A line after the blocks named in `tbs` are invalidated: an occupied
slot whose tag is in `tbs` becomes free, everything else is unchanged. -/
def clearTag (tbs : List Nat) (o : Option Nat) : Option Nat :=
  match o with
  | some b => if b ∈ tbs then none else some b
  | none => none

/-- Slot `j` of `lines` holds a tag named in `tbs`. -/
def slotTagged (lines : List (Option Nat)) (tbs : List Nat) (j : Nat) : Bool :=
  match lines.get? j with
  | some (some b) => decide (b ∈ tbs)
  | _ => false

/-- A line after page `P` is invalidated: an occupied slot whose tag is a
block starting inside `[P, P + 4096)` becomes free, everything else is
unchanged. -/
def clearedLine (bs P : Nat) (o : Option Nat) : Option Nat :=
  match o with
  | some b => if P ≤ b * bs ∧ b * bs < P + 4096 then none else some b
  | none => none

/-- Slot `j` of `lines` holds a tag that is a block starting inside
`[P, P + 4096)`. -/
def slotInPage (bs P : Nat) (lines : List (Option Nat)) (j : Nat) : Bool :=
  match lines.get? j with
  | some (some b) => decide (P ≤ b * bs ∧ b * bs < P + 4096)
  | _ => false

/-- No tag is stored twice in one set (true of every reachable state, since
`access` inserts a tag only when it is absent). -/
def NoDupTags (s : CacheSet) : Prop :=
  ∀ j1 j2 t, s.lines.get? j1 = some (some t) → s.lines.get? j2 = some (some t) → j1 = j2

/-! ## Copy-pattern detector (src/bin/rowclone.rs)

The detector state is the working window of kernel intents, the potential
and ongoing copies, the remaining kernel log (pre-split into lines; `none`
stands for a line the fixed-pattern grammar rejects), the id counter of the
kernel-log reader, and the emitted output.  Reference constants:
`COPY_WINDOW = 200`, `COPY_WINDOW_STALE_THRESHOLD = 20`,
`COPY_CONFIDENCE_THRESHOLD = 128`. -/
/-- `KernelRecord` of src/bin/rowclone.rs. -/
structure KernelRecord where
  rec_id : Nat
  command : List Char
  cpu : Nat
  size : Nat
  operation : Char
  kernel_address : Nat
  user_address : Nat
  stale : Nat
deriving DecidableEq, Repr

/-- A parsed kernel-log line before the reader assigns it a `rec_id`. -/
structure RawKernel where
  command : List Char
  cpu : Nat
  size : Nat
  operation : Char
  kernel_address : Nat
  user_address : Nat
deriving DecidableEq, Repr

/-- `MemCpy` of src/bin/rowclone.rs (a potential or ongoing copy). -/
structure MemCpy where
  rec_id : Nat
  insn_count : Nat
  from_addr : Nat
  to_addr : Nat
  size : Nat
  current_from : Nat
  current_to : Nat
deriving DecidableEq, Repr

/-- `mem_copy_match`: a load at the `current_from` cursor or a store at the
`current_to` cursor. -/
def mem_copy_match (m : LogRecord) (copy : MemCpy) : Bool :=
  (decide (copy.current_from = m.address) && decide (m.store = 0))
    || (decide (copy.current_to = m.address) && decide (m.store = 1))

/-- `copy_done`: the store cursor has reached `to + size` (u64 add). -/
def copy_done (copy : MemCpy) : Bool :=
  decide (copy.current_to ≥ u64add copy.to_addr copy.size)

/-- `update_copy`: advance the matching cursor by `1 << size` bytes and
report completion.  An out-of-range index would panic in Rust; it never
occurs (indices come from match scans). -/
def update_copy (copies : List MemCpy) (idx : Nat) (m : LogRecord) : List MemCpy × Bool :=
  match copies.get? idx with
  | none => (copies, false)
  | some c =>
    let sz := u64shl 1 m.size
    let c2 := if m.store = 1 then { c with current_to := u64add c.current_to sz }
      else { c with current_from := u64add c.current_from sz }
    (copies.set idx c2, copy_done c2)

/-- `copy_matched`: both matched byte counts (u64 differences of the
cursors from the anchors) exceed the 128-byte confidence threshold. -/
def copy_matched (copies : List MemCpy) (idx : Nat) : Bool :=
  match copies.get? idx with
  | none => false
  | some c =>
    decide (u64sub c.current_to c.to_addr > 128)
      && decide (u64sub c.current_from c.from_addr > 128)

/-- Detector state threaded through `match_copy_to_mem_accesses`. -/
structure DetState where
  potential_copies : List MemCpy
  ongoing_copies : List MemCpy
  copy_window : List KernelRecord
  copy_logs : List (Option RawKernel)
  next_rec_id : Nat
  output : List MemoryAccess
  rowclones : Nat
deriving DecidableEq, Repr

/-- `next_kernel_line`: consume one kernel-log line; a parsable line gets
the next id from the reader's counter, an unparsable one yields `none`
(the refill loop then stops, as in the Rust `if let … else return`). -/
def next_kernel_line (logs : List (Option RawKernel)) (next_id : Nat) :
    Option KernelRecord × List (Option RawKernel) × Nat :=
  match logs with
  | [] => (none, [], next_id)
  | some raw :: rest =>
    (some ⟨next_id, raw.command, raw.cpu, raw.size, raw.operation,
      raw.kernel_address, raw.user_address, 0⟩, rest, next_id + 1)
  | none :: rest => (none, rest, next_id)

/-- `update_stale`: intents older than the just-retired one age by one. -/
def update_stale (rec_id : Nat) (w : List KernelRecord) : List KernelRecord :=
  w.map (fun k => if k.rec_id < rec_id then { k with stale := k.stale + 1 } else k)

/-- The refill loop of `remove_stale_copies`: pull kernel lines until the
window holds `COPY_WINDOW = 200` intents or a pull fails.  The fuel is the
remaining log length plus one, which the loop can never exhaust. -/
def refill_window : Nat → List KernelRecord → List (Option RawKernel) → Nat →
    List KernelRecord × List (Option RawKernel) × Nat
  | 0, w, logs, nid => (w, logs, nid)
  | fuel + 1, w, logs, nid =>
    if w.length < 200 then
      match next_kernel_line logs nid with
      | (some k, logs2, nid2) => refill_window fuel (w ++ [k]) logs2 nid2
      | (none, logs2, nid2) => (w, logs2, nid2)
    else (w, logs, nid)

/-- `remove_stale_copies`: age the window, drop intents staler than the
threshold (20), refill from the kernel log up to 200 entries. -/
def remove_stale_copies (rec_id : Nat) (w : List KernelRecord)
    (logs : List (Option RawKernel)) (nid : Nat) :
    List KernelRecord × List (Option RawKernel) × Nat :=
  let w2 := (update_stale rec_id w).filter (fun k => decide (k.stale ≤ 20))
  refill_window (logs.length + 1) w2 logs nid

/-- `part_of_ongoing_copy`: the first ongoing copy matching the access is
advanced and, when complete, removed; the access is consumed. -/
def part_of_ongoing_copy (m : LogRecord) (ongoing : List MemCpy) : Bool × List MemCpy :=
  match listPos (mem_copy_match m) ongoing with
  | none => (false, ongoing)
  | some idx =>
    let p := update_copy ongoing idx m
    if p.2 then (true, p.1.eraseIdx idx) else (true, p.1)

/-- Indices of all elements satisfying the predicate, ascending. -/
def idxsWhere {α : Type} (p : α → Bool) (l : List α) : List Nat :=
  (List.range l.length).filter (fun i =>
    match l.get? i with
    | some x => p x
    | none => false)

/-- One step of `part_of_potential_copy`'s second loop, at one matching
index: advance the cursor; when complete, emit the CopyRecord, retire the
intent, run the staleness sweep, drop the potential copy; else when the
confidence threshold is newly exceeded, emit the CopyRecord early, retire
the intent, sweep, and promote the copy to ongoing. -/
def process_match (m : LogRecord) (st : DetState) (idx : Nat) : DetState :=
  let p := update_copy st.potential_copies idx m
  if p.2 then
    match p.1.get? idx with
    | none => { st with potential_copies := p.1 }
    | some c =>
      let w1 := st.copy_window.filter (fun k => decide (k.rec_id ≠ c.rec_id))
      let r := remove_stale_copies c.rec_id w1 st.copy_logs st.next_rec_id
      { st with
        potential_copies := p.1.eraseIdx idx
        copy_window := r.1
        copy_logs := r.2.1
        next_rec_id := r.2.2
        output := st.output ++ [MemoryAccess.Rowclone ⟨c.insn_count, c.from_addr, c.to_addr⟩]
        rowclones := st.rowclones + 1 }
  else if copy_matched p.1 idx then
    match p.1.get? idx with
    | none => { st with potential_copies := p.1 }
    | some c =>
      let w1 := st.copy_window.filter (fun k => decide (k.rec_id ≠ c.rec_id))
      let r := remove_stale_copies c.rec_id w1 st.copy_logs st.next_rec_id
      { st with
        potential_copies := p.1.eraseIdx idx
        ongoing_copies := st.ongoing_copies ++ [c]
        copy_window := r.1
        copy_logs := r.2.1
        next_rec_id := r.2.2
        output := st.output ++ [MemoryAccess.Rowclone ⟨c.insn_count, c.from_addr, c.to_addr⟩]
        rowclones := st.rowclones + 1 }
  else { st with potential_copies := p.1 }

/-- `part_of_potential_copy`: collect all matching indices, then process
them in reverse order; the access is consumed if any index matched. -/
def part_of_potential_copy (m : LogRecord) (st : DetState) : Bool × DetState :=
  let hits := idxsWhere (mem_copy_match m) st.potential_copies
  (decide (hits ≠ []), hits.reverse.foldl (process_match m) st)

/-- One window intent in `check_potential_copy_start`: a load at the
declared source opens (or re-anchors) a potential copy.  Note the
initial `from` cursor `(address + 1) << size` — the Rust source writes
`mem_access.address + 1 << mem_access.size`, and `+` binds tighter than
`<<` in Rust. -/
def check_start_one (m : LogRecord) (acc : Bool × List MemCpy) (copy : KernelRecord) :
    Bool × List MemCpy :=
  let is_start :=
    if copy.operation = 'r' then
      decide (m.store = 0) && decide (copy.kernel_address = m.address)
    else if copy.operation = 'w' then
      decide (m.store = 0) && decide (copy.user_address = m.address)
    else false
  if is_start then
    match listPos (fun pc => decide (pc.rec_id = copy.rec_id)) acc.2 with
    | some pidx =>
      match acc.2.get? pidx with
      | none => acc
      | some pc =>
        if pc.current_to = pc.to_addr then
          (true, acc.2.set pidx { pc with insn_count := m.insn_count })
        else acc
    | none =>
      let dst := if copy.operation = 'w' then copy.kernel_address else copy.user_address
      (true, acc.2 ++ [⟨copy.rec_id, m.insn_count, m.address, dst, copy.size,
        u64shl (u64add m.address 1) m.size, dst⟩])
  else acc

/-- `check_potential_copy_start`: scan every intent in the window. -/
def check_potential_copy_start (m : LogRecord) (window : List KernelRecord)
    (potential : List MemCpy) : Bool × List MemCpy :=
  window.foldl (check_start_one m) (false, potential)

/-- One iteration of `match_copy_to_mem_accesses`'s main loop: ongoing
continuation, then potential continuation, then new-copy detection, then
pass-through. -/
def detector_step (st : DetState) (m : LogRecord) : DetState :=
  let o := part_of_ongoing_copy m st.ongoing_copies
  if o.1 then { st with ongoing_copies := o.2 }
  else
    let q := part_of_potential_copy m st
    if q.1 then q.2
    else
      let r := check_potential_copy_start m st.copy_window st.potential_copies
      if r.1 then { st with potential_copies := r.2 }
      else { st with output := st.output
        ++ [MemoryAccess.Regular ⟨m.insn_count, m.address, m.store = 1⟩] }

/-- `match_copy_to_mem_accesses`: fold the detector over the access stream. -/
def run_detector (accs : List LogRecord) (st : DetState) : DetState :=
  accs.foldl detector_step st

/-! ### C1 and C7: the clean-trace scenario and the cursor initialization -/
/-- A kernel intent declaring a kernel-to-user copy of 256 bytes from
`0x1000` to `0x2000`, resident in the working window. -/
def c1_intent : KernelRecord := ⟨0, [], 0, 256, 'r', 0x1000, 0x2000, 0⟩

/-- The clean trace of C1: 32 contiguous 8-byte (size class 3) loads from
`0x1000`, followed immediately by 32 contiguous 8-byte stores to `0x2000`
— `S / block = 256 / 8 = 32` of each, matched bytes well above the
128-byte confidence threshold. -/
def c1_trace : List LogRecord :=
  (List.range 32).map (fun i => ⟨i + 1, 0, 0, 3, 0x1000 + 8 * i⟩)
    ++ (List.range 32).map (fun j => ⟨j + 33, 0, 1, 3, 0x2000 + 8 * j⟩)

/-- Initial detector state: the intent in the window, kernel log drained. -/
def c1_state : DetState := ⟨[], [], [c1_intent], [], 1, [], 0⟩

def isRegularAccess : MemoryAccess → Bool
  | MemoryAccess.Regular _ => true
  | MemoryAccess.Rowclone _ => false

def isRowcloneRecord : MemoryAccess → Bool
  | MemoryAccess.Regular _ => false
  | MemoryAccess.Rowclone _ => true

/-! ## Theorems -/

theorem fromBytesLE_toBytesLE (k n : Nat) : fromBytesLE (toBytesLE k n) = n % 2 ^ (8 * k) := by
  induction k generalizing n with
  | zero => simp [toBytesLE, fromBytesLE, Nat.mod_one]
  | succ k ih =>
    have h256 : (2 : Nat) ^ (8 * (k + 1)) = 256 * 2 ^ (8 * k) := by ring
    rw [toBytesLE, fromBytesLE, ih, h256, Nat.mod_mul]

/-! ## Theorems: C3 (binary codec round trip) -/
/-- C3: for every `LogRecord` with legal field values (`insn_count`,
`address` in `u64` range, `cpu`, `store`, `size` in `u8` range),
deserializing the buffer produced by serializing it yields the original
record: the binary serialize/deserialize pair of src/log_parser.rs are
exact inverses. -/
theorem toBytesLE_length (k n : Nat) : (toBytesLE k n).length = k := by
  induction k generalizing n with
  | zero => rfl
  | succ k ih => simp [toBytesLE, ih]

theorem c3_getD_append (l₁ l₂ : List Nat) (k d : Nat) :
    (l₁ ++ l₂).getD (l₁.length + k) d = l₂.getD k d := by
  induction l₁ with
  | nil => simp
  | cons x xs ih => simpa [List.getD_cons_succ, Nat.succ_add] using ih

theorem c3_codec_roundtrip (r : LogRecord)
    (h1 : r.insn_count < 2 ^ 64) (h2 : r.cpu < 2 ^ 8) (h3 : r.store < 2 ^ 8)
    (h4 : r.size < 2 ^ 8) (h5 : r.address < 2 ^ 64) :
    LogRecord.deserialize (LogRecord.serialize r) = r := by
  have key : ∀ n : Nat, n < 2 ^ 64 → fromBytesLE (toBytesLE 8 n) = n := by
    intro n hn
    rw [fromBytesLE_toBytesLE]
    exact Nat.mod_eq_of_lt (by exact_mod_cast hn)
  cases r with
  | mk a b c d e =>
    have hlen : (toBytesLE 8 a).length = 8 := toBytesLE_length 8 a
    have hgd : ∀ k dflt, (toBytesLE 8 a ++ ([b, c, d, 0, 0, 0, 0, 0] ++ toBytesLE 8 e)).getD
        (8 + k) dflt = ([b, c, d, 0, 0, 0, 0, 0] ++ toBytesLE 8 e).getD k dflt := by
      intro k dflt
      rw [← hlen]
      exact c3_getD_append _ _ k dflt
    simp only [LogRecord.serialize, LogRecord.deserialize, List.append_assoc, LogRecord.mk.injEq]
    refine ⟨?_, ?_, ?_, ?_, ?_⟩
    · rw [List.take_left' hlen]
      exact key a h1
    · exact (hgd 0 0).trans rfl
    · exact (hgd 1 0).trans rfl
    · exact (hgd 2 0).trans rfl
    · have hlen16 : (toBytesLE 8 a ++ [b, c, d, 0, 0, 0, 0, 0]).length = 16 := by
        simp [hlen]
      rw [← List.append_assoc, List.drop_left' hlen16,
        List.take_of_length_le (le_of_eq (toBytesLE_length 8 e))]
      exact key e h5

/-- Witness for C3 at a concrete record. -/
theorem c3_codec_roundtrip_witness :
    LogRecord.deserialize (LogRecord.serialize ⟨77, 3, 1, 4, 4096⟩) = ⟨77, 3, 1, 4, 4096⟩ :=
  c3_codec_roundtrip ⟨77, 3, 1, 4, 4096⟩ (by decide) (by decide) (by decide) (by decide)
    (by decide)

/-- C9 counterexample: in the cache-simulator binary (src/bin/cache.rs) the
bubble of an emitted record is the raw wrapping `u64` difference; when the
per-CPU instruction counter goes backward (previous 5, current 3) the
computation wraps to `2^64 - 2` instead of being clamped to 1, refuting the
claim that the subtraction never underflows or wraps. -/
theorem c9_counterexample :
    ramulatorBubble 3 5 = 2 ^ 64 - 2 ∧ ramulatorBubble 3 5 ≠ 1 ∧ mainBubbleCount 5 3 = 1 := by
  refine ⟨by decide, by decide, rfl⟩

/-- C9 (amended): in src/bin/cache.rs the bubble of an emitted record is the
wrapping `u64` difference between its instruction count and the previously
emitted record's count for that CPU, with no clamp: it equals the true
difference (and agrees with the clamped `bubble_count` of the superseded
src/main.rs stage) exactly when the counter has not gone backward, and
wraps to `2^64 - (prev - insn)` when it has. -/
theorem c9_bubble_amended (insn prev : Nat) (h1 : insn < 2 ^ 64) (h2 : prev < 2 ^ 64) :
    (prev ≤ insn → ramulatorBubble insn prev = insn - prev
      ∧ ramulatorBubble insn prev = mainBubbleCount prev insn)
    ∧ (insn < prev → ramulatorBubble insn prev = 2 ^ 64 - (prev - insn)) := by
  unfold ramulatorBubble u64sub mainBubbleCount U64
  constructor
  · intro hle
    have : ¬ prev > insn := by omega
    simp only [this, if_false]
    omega
  · intro hlt
    omega

/-- Witness for C9's amended theorem at a concrete input. -/
theorem c9_bubble_amended_witness : ramulatorBubble 7 3 = 4 :=
  ((c9_bubble_amended 7 3 (by decide) (by decide)).1 (by decide)).1

/-! ## Theorems: C4 (text round trip of annotated records) -/
/-- C4 evaluation at the failing input: `Display` for a `RowcloneRecord`
prints three comma-separated fields, but `FromStr` for `MemoryAccess`
classifies a three-field line as a regular store, so the printed copy
record `{insn_count := 1, from := 0x1000, to := 0x2000}` parses back as a
regular store at the destination address instead of a copy record: the
text round trip loses the variant tag. -/
theorem c4_rowclone_roundtrip_fails :
    memoryAccessFromStr (MemoryAccess.display
        (MemoryAccess.Rowclone { insn_count := 1, from_addr := 0x1000, to_addr := 0x2000 }))
      = POut.ok (MemoryAccess.Regular { insn_count := 1, address := 0x2000, store := true })
    ∧ memoryAccessFromStr (MemoryAccess.display
        (MemoryAccess.Rowclone { insn_count := 1, from_addr := 0x1000, to_addr := 0x2000 }))
      ≠ POut.ok (MemoryAccess.Rowclone { insn_count := 1, from_addr := 0x1000, to_addr := 0x2000 }) := by
  refine ⟨by decide, by decide⟩

/-! ## Theorems: C10 (malformed text lines) -/
/-- C10 counterexample: the `MemoryAccess` text parser
(src/memory_access.rs) panics (`expect`) instead of returning an error when
the instruction-count field is non-numeric: on input `"z,0x10"` it
reaches `parts[0].parse::<u64>().expect("fail")`. -/
theorem c10_counterexample :
    memoryAccessFromStr ("z,0x10".data) = POut.panic ∧
      memoryAccessFromStr ("1,0xzz".data) = POut.panic := by
  refine ⟨by decide, by decide⟩

/-- C10 (amended): the `LogRecord` text parser (src/log_parser.rs) is the
one with `MalformedRecord`-style error handling: on any input line it never
panics, and it returns an error whenever the comma-separated field count
differs from 5 or any field fails to parse; the `MemoryAccess` parser
(src/memory_access.rs) instead panics on a failing field
(`c10_counterexample`). -/
theorem c10_logrecord_parser_errors (l : List Char) :
    logRecordFromStr l ≠ POut.panic
    ∧ ((splitComma (trimChars l)).length ≠ 5 → logRecordFromStr l = POut.err)
    ∧ ((splitComma (trimChars l)).length = 5 →
        (parseUInt 64 ((splitComma (trimChars l)).getD 0 []) = none
          ∨ parseUInt 8 ((splitComma (trimChars l)).getD 1 []) = none
          ∨ parseUInt 8 ((splitComma (trimChars l)).getD 2 []) = none
          ∨ parseUInt 8 ((splitComma (trimChars l)).getD 3 []) = none
          ∨ parseHexU64 ((splitComma (trimChars l)).getD 4 []) = none) →
        logRecordFromStr l = POut.err) := by
  refine ⟨?_, ?_, ?_⟩
  · simp only [logRecordFromStr]
    split
    · exact fun h => nomatch h
    · split <;> exact fun h => nomatch h
  · intro hlen
    simp only [logRecordFromStr]
    rw [if_pos hlen]
  · intro hlen hbad
    simp only [logRecordFromStr]
    rw [if_neg (by simp [hlen])]
    split
    · rename_i a b c d e heq
      rcases hbad with h | h | h | h | h <;> simp_all
    · rfl

/-- Witness for C10's amended theorem at concrete inputs. -/
theorem c10_logrecord_parser_errors_witness :
    logRecordFromStr ("1,2".data) = POut.err ∧
      logRecordFromStr ("1,2,3,4,0xzz".data) = POut.err :=
  ⟨(c10_logrecord_parser_errors ("1,2".data)).2.1 (by decide),
    (c10_logrecord_parser_errors ("1,2,3,4,0xzz".data)).2.2 (by decide) (by decide)⟩

theorem bestSource_get (srcs : List (List LogRecord)) (i : Nat) (r : LogRecord)
    (t : List LogRecord) (h : bestSource srcs = some (i, r, t)) :
    srcs.get? i = some (r :: t) := by
  induction srcs generalizing i with
  | nil => simp [bestSource] at h
  | cons s rest ih =>
    match s with
    | [] =>
      simp only [bestSource, Option.map_eq_some'] at h
      obtain ⟨⟨i', r', t'⟩, hb, heq⟩ := h
      cases heq
      simpa using ih i' hb
    | r0 :: t0 =>
      simp only [bestSource] at h
      split at h
      · cases h
        rfl
      · rename_i i' r' t' hb
        split at h
        · cases h
          simpa using ih i' hb
        · cases h
          rfl

theorem bestSource_none (srcs : List (List LogRecord)) (h : bestSource srcs = none) :
    srcs.flatten = [] := by
  induction srcs with
  | nil => rfl
  | cons s rest ih =>
    match s with
    | [] =>
      simp only [bestSource, Option.map_eq_none'] at h
      simpa using ih h
    | r0 :: t0 =>
      simp only [bestSource] at h
      split at h
      · cases h
      · split at h <;> cases h

theorem bestSource_min_heads (srcs : List (List LogRecord)) (i : Nat) (r : LogRecord)
    (t : List LogRecord) (h : bestSource srcs = some (i, r, t)) :
    ∀ j hd u, srcs.get? j = some (hd :: u) → r.insn_count ≤ hd.insn_count := by
  induction srcs generalizing i r t with
  | nil => simp [bestSource] at h
  | cons s rest ih =>
    match s with
    | [] =>
      simp only [bestSource, Option.map_eq_some'] at h
      obtain ⟨⟨i', r', t'⟩, hb, heq⟩ := h
      cases heq
      intro j hd u hj
      match j with
      | 0 => simp at hj
      | j + 1 => exact ih i' r t hb j hd u (by simpa using hj)
    | r0 :: t0 =>
      simp only [bestSource] at h
      split at h
      · rename_i hb
        cases h
        intro j hd u hj
        match j with
        | 0 =>
          simp only [List.get?] at hj
          cases hj
          exact le_refl _
        | j + 1 =>
          have hmem : hd :: u ∈ rest := List.get?_mem (by simpa using hj)
          have hin : hd ∈ rest.flatten :=
            List.mem_flatten.mpr ⟨_, hmem, List.mem_cons_self _ _⟩
          rw [bestSource_none rest hb] at hin
          simp at hin
      · rename_i i' r' t' hb
        split at h
        · rename_i hlt
          cases h
          intro j hd u hj
          match j with
          | 0 =>
            simp only [List.get?] at hj
            cases hj
            exact le_of_lt hlt
          | j + 1 => exact ih i' r t hb j hd u (by simpa using hj)
        · rename_i hlt
          cases h
          intro j hd u hj
          match j with
          | 0 =>
            simp only [List.get?] at hj
            cases hj
            exact le_refl _
          | j + 1 =>
            exact le_trans (not_lt.mp hlt) (ih _ _ _ hb j hd u (by simpa using hj))

theorem bestSource_tiebreak (srcs : List (List LogRecord)) (i : Nat) (r : LogRecord)
    (t : List LogRecord) (h : bestSource srcs = some (i, r, t)) :
    ∀ j hd u, j < i → srcs.get? j = some (hd :: u) → r.insn_count < hd.insn_count := by
  induction srcs generalizing i with
  | nil => simp [bestSource] at h
  | cons s rest ih =>
    match s with
    | [] =>
      simp only [bestSource, Option.map_eq_some'] at h
      obtain ⟨⟨i', r', t'⟩, hb, heq⟩ := h
      cases heq
      intro j hd u hji hj
      match j with
      | 0 => simp at hj
      | j + 1 => exact ih i' hb j hd u (by omega) (by simpa using hj)
    | r0 :: t0 =>
      simp only [bestSource] at h
      split at h
      · cases h
        intro j hd u hji _
        omega
      · rename_i i' r' t' hb
        split at h
        · rename_i hlt
          cases h
          intro j hd u hji hj
          match j with
          | 0 =>
            simp only [List.get?] at hj
            cases hj
            exact hlt
          | j + 1 => exact ih i' hb j hd u (by omega) (by simpa using hj)
        · cases h
          intro j hd u hji _
          omega

theorem flatten_perm_set (srcs : List (List LogRecord)) (i : Nat) (r : LogRecord)
    (t : List LogRecord) (h : srcs.get? i = some (r :: t)) :
    srcs.flatten.Perm (r :: (srcs.set i t).flatten) := by
  induction srcs generalizing i with
  | nil => simp at h
  | cons s rest ih =>
    match i with
    | 0 =>
      simp only [List.get?] at h
      cases h
      simp
    | i + 1 =>
      have hi : rest.get? i = some (r :: t) := by simpa using h
      have h1 := List.Perm.append_left s (ih i hi)
      have h2 : (s ++ (r :: (rest.set i t).flatten)).Perm
          (r :: (s ++ (rest.set i t).flatten)) := List.perm_middle
      simpa using h1.trans h2

theorem totalLen_set (srcs : List (List LogRecord)) (i : Nat) (r : LogRecord)
    (t : List LogRecord) (h : srcs.get? i = some (r :: t)) :
    totalLen (srcs.set i t) + 1 = totalLen srcs := by
  have := (flatten_perm_set srcs i r t h).length_eq
  simp only [List.length_cons] at this
  unfold totalLen
  rw [← List.length_flatten, ← List.length_flatten]
  omega

theorem kmergeAux_perm (fuel : Nat) (srcs : List (List LogRecord))
    (hf : totalLen srcs ≤ fuel) : (kmergeAux fuel srcs).Perm srcs.flatten := by
  induction fuel generalizing srcs with
  | zero =>
    have : srcs.flatten.length = 0 := by
      rw [List.length_flatten]
      exact Nat.le_zero.mp hf
    rw [List.length_eq_zero.mp this]
    exact List.Perm.refl _
  | succ fuel ih =>
    rw [kmergeAux]
    rcases hb : bestSource srcs with _ | ⟨i, r, t⟩
    · rw [bestSource_none srcs hb]
    · have hget := bestSource_get srcs i r t hb
      have htl := totalLen_set srcs i r t hget
      have hrec := ih (srcs.set i t) (by omega)
      exact ((hrec.cons r).trans (flatten_perm_set srcs i r t hget).symm).symm.symm

theorem kmergeAux_sorted (fuel : Nat) (srcs : List (List LogRecord))
    (hf : totalLen srcs ≤ fuel) (hs : ∀ s ∈ srcs, SortedInsn s) :
    SortedInsn (kmergeAux fuel srcs) := by
  induction fuel generalizing srcs with
  | zero => exact List.Pairwise.nil
  | succ fuel ih =>
    rw [kmergeAux]
    rcases hb : bestSource srcs with _ | ⟨i, r, t⟩
    · exact List.Pairwise.nil
    · have hget := bestSource_get srcs i r t hb
      have htl := totalLen_set srcs i r t hget
      have hs' : ∀ s ∈ srcs.set i t, SortedInsn s := by
        intro s hmem
        rcases List.mem_or_eq_of_mem_set hmem with hin | rfl
        · exact hs s hin
        · exact ((hs _ (List.get?_mem hget)).of_cons)
      refine List.pairwise_cons.mpr ⟨?_, ih (srcs.set i t) (by omega) hs'⟩
      intro x hx
      have hxflat : x ∈ (srcs.set i t).flatten :=
        (kmergeAux_perm fuel (srcs.set i t) (by omega)).mem_iff.mp hx
      have hxall : x ∈ srcs.flatten := by
        have : x ∈ r :: (srcs.set i t).flatten := List.mem_cons_of_mem r hxflat
        exact (flatten_perm_set srcs i r t hget).mem_iff.mpr this
      obtain ⟨s, hsmem, hxs⟩ := List.mem_flatten.mp hxall
      obtain ⟨j, hj⟩ := List.mem_iff_get?.mp hsmem
      match s, hxs with
      | hd :: u, hxs =>
        have h1 : r.insn_count ≤ hd.insn_count := bestSource_min_heads srcs i r t hb j hd u hj
        have h2 : hd.insn_count ≤ x.insn_count := by
          rcases List.mem_cons.mp hxs with rfl | hxu
          · exact le_refl _
          · exact (List.pairwise_cons.mp (hs _ hsmem)).1 x hxu
        exact le_trans h1 h2

/-- C2: for every collection of input sources each individually
non-decreasing in `insn_count`, the merger of src/bin/log_merger.rs emits a
permutation of the concatenated inputs (every input record exactly once, no
drops, no duplication), hence exactly `T` records for total length `T`; the
output is globally non-decreasing in `insn_count`; and the selection step
never picks a source while a lower-indexed source holds a buffered record
of equal (or smaller) `insn_count` — on a tie the lower source index is
emitted first. -/
theorem c2_merge_totality_order (srcs : List (List LogRecord))
    (hs : ∀ s ∈ srcs, SortedInsn s) :
    (kmerge srcs).Perm srcs.flatten
    ∧ (kmerge srcs).length = totalLen srcs
    ∧ SortedInsn (kmerge srcs)
    ∧ (∀ i r t, bestSource srcs = some (i, r, t) →
        ∀ j hd u, j < i → srcs.get? j = some (hd :: u) → r.insn_count < hd.insn_count) := by
  refine ⟨kmergeAux_perm _ _ (le_refl _), ?_, kmergeAux_sorted _ _ (le_refl _) hs,
    fun i r t h => bestSource_tiebreak srcs i r t h⟩
  have hlen := (kmergeAux_perm (totalLen srcs) srcs (le_refl _)).length_eq
  unfold kmerge
  rw [hlen, List.length_flatten]
  rfl

/-- Witness for C2 on a concrete pair of sources with an `insn_count` tie:
source 0 holds records at counts 1 and 3, source 1 a record at count 1; the
merge emits all three records, non-decreasing, with source 0's record first
on the tie. -/
theorem c2_merge_totality_order_witness :
    SortedInsn (kmerge [[⟨1, 0, 0, 0, 10⟩, ⟨3, 0, 0, 0, 11⟩], [⟨1, 1, 0, 0, 20⟩]])
    ∧ (kmerge [[⟨1, 0, 0, 0, 10⟩, ⟨3, 0, 0, 0, 11⟩], [⟨1, 1, 0, 0, 20⟩]]).length = 3 :=
  ⟨(c2_merge_totality_order _ (by decide)).2.2.1,
    ((c2_merge_totality_order _ (by decide)).2.1).trans (by decide)⟩

/-! ### listPos lemmas -/
theorem listPos_eq_none {α : Type} (p : α → Bool) (l : List α)
    (h : ∀ x ∈ l, p x = false) : listPos p l = none := by
  induction l with
  | nil => rfl
  | cons x xs ih =>
    rw [listPos, if_neg (by simp [h x (List.mem_cons_self x xs)]), ih]
    · rfl
    · exact fun y hy => h y (List.mem_cons_of_mem x hy)

theorem listPos_none_forall {α : Type} (p : α → Bool) (l : List α)
    (h : listPos p l = none) : ∀ x ∈ l, p x = false := by
  induction l with
  | nil => simp
  | cons x xs ih =>
    rw [listPos] at h
    by_cases hx : p x
    · rw [if_pos hx] at h
      cases h
    · rw [if_neg hx] at h
      intro y hy
      rcases List.mem_cons.mp hy with rfl | hmem
      · simpa using hx
      · exact ih (by simpa using h) y hmem

theorem listPos_some_get {α : Type} (p : α → Bool) (l : List α) (i : Nat)
    (h : listPos p l = some i) : ∃ x, l.get? i = some x ∧ p x = true := by
  induction l generalizing i with
  | nil => cases h
  | cons x xs ih =>
    rw [listPos] at h
    by_cases hx : p x
    · rw [if_pos hx] at h
      cases h
      exact ⟨x, rfl, hx⟩
    · rw [if_neg hx, Option.map_eq_some'] at h
      obtain ⟨j, hj, rfl⟩ := h
      obtain ⟨y, hy, hpy⟩ := ih j hj
      exact ⟨y, by simpa using hy, hpy⟩

theorem listPos_of_mem {α : Type} (p : α → Bool) (l : List α) (x : α)
    (hx : x ∈ l) (hp : p x = true) : ∃ i, listPos p l = some i := by
  induction l with
  | nil => cases hx
  | cons y ys ih =>
    rw [listPos]
    by_cases hy : p y
    · exact ⟨0, by rw [if_pos hy]⟩
    · rcases List.mem_cons.mp hx with rfl | hmem
      · exact absurd hp (by simpa using hy)
      · obtain ⟨i, hi⟩ := ih hmem
        exact ⟨i + 1, by rw [if_neg hy, hi]; rfl⟩

theorem listPos_append_none_left {α : Type} (p : α → Bool) (l1 l2 : List α)
    (h : ∀ x ∈ l1, p x = false) :
    listPos p (l1 ++ l2) = (listPos p l2).map (fun i => i + l1.length) := by
  induction l1 with
  | nil => rcases h2 : listPos p l2 with _ | i <;> simp [h2]
  | cons x xs ih =>
    rw [List.cons_append, listPos, if_neg (by simp [h x (List.mem_cons_self x xs)]),
      ih (fun y hy => h y (List.mem_cons_of_mem x hy))]
    rcases h2 : listPos p l2 with _ | i <;> simp [h2]
    omega

/-! ### CacheSet access shape lemmas -/
theorem CacheSet.access_hit_of (s : CacheSet) (t : Nat) (pos : Nat)
    (h : listPos (fun line => decide (line = some t)) s.lines = some pos) :
    s.access t
      = some (true, ⟨s.lines, (s.lru_order.filter (fun i => decide (i ≠ pos))) ++ [pos]⟩) := by
  rw [CacheSet.access, h]

theorem CacheSet.access_free_of (s : CacheSet) (t : Nat) (free_pos : Nat)
    (h1 : listPos (fun line => decide (line = some t)) s.lines = none)
    (h2 : listPos (fun line => decide (line = none)) s.lines = some free_pos) :
    s.access t = some (false, ⟨s.lines.set free_pos (some t), s.lru_order ++ [free_pos]⟩) := by
  rw [CacheSet.access, h1, h2]

theorem CacheSet.access_evict_of (s : CacheSet) (t : Nat) (e : Nat) (rest : List Nat)
    (h1 : listPos (fun line => decide (line = some t)) s.lines = none)
    (h2 : listPos (fun line => decide (line = none)) s.lines = none)
    (h3 : s.lru_order = e :: rest) :
    s.access t = some (false, ⟨s.lines.set e (some t), rest ++ [e]⟩) := by
  rw [CacheSet.access, h1, h2, h3]

theorem set_append_length {α : Type} (l1 l2 : List α) (a : α) :
    (l1 ++ l2).set l1.length a = l1 ++ l2.set 0 a := by
  induction l1 with
  | nil => rfl
  | cons x xs ih => simp [List.set, ih]

theorem accessSeq_append (s : CacheSet) (l1 l2 : List Nat) :
    s.accessSeq (l1 ++ l2) =
      match s.accessSeq l1 with
      | none => none
      | some (bs, sm) =>
        match sm.accessSeq l2 with
        | none => none
        | some (bs2, s2) => some (bs ++ bs2, s2) := by
  induction l1 generalizing s with
  | nil =>
    rw [List.nil_append]
    rw [show s.accessSeq [] = some ([], s) from rfl]
    dsimp only
    rcases s.accessSeq l2 with _ | ⟨bs2, s2⟩ <;> rfl
  | cons t ts ih =>
    rw [List.cons_append, CacheSet.accessSeq, CacheSet.accessSeq]
    rcases s.access t with _ | ⟨b, sm⟩
    · rfl
    · dsimp only
      rw [ih sm]
      rcases sm.accessSeq ts with _ | ⟨bs, sm2⟩
      · rfl
      · dsimp only
        rcases sm2.accessSeq l2 with _ | ⟨bs2, s2⟩ <;> rfl

theorem filledSet_nil (k : Nat) : filledSet k [] = CacheSet.new k := rfl

theorem filledSet_no_hit (k : Nat) (done : List Nat) (t : Nat) (hnd : t ∉ done) :
    listPos (fun line => decide (line = some t)) (filledSet k done).lines = none := by
  apply listPos_eq_none
  intro x hx
  rcases List.mem_append.mp hx with hx | hx
  · obtain ⟨d, hd, rfl⟩ := List.mem_map.mp hx
    simp only [decide_eq_false_iff_not]
    intro hcontra
    cases hcontra
    exact hnd hd
  · rw [List.eq_of_mem_replicate hx]
    simp

theorem access_filledSet (k : Nat) (done : List Nat) (t : Nat)
    (hnd : t ∉ done) (hlt : done.length < k) :
    (filledSet k done).access t = some (false, filledSet k (done ++ [t])) := by
  have hrep : List.replicate (k - done.length) (none : Option Nat)
      = (none : Option Nat) :: List.replicate (k - done.length - 1) none := by
    have hm : k - done.length = (k - done.length - 1) + 1 := by omega
    conv_lhs => rw [hm]
    rw [List.replicate_succ]
  have hfree : listPos (fun line => decide (line = none)) (filledSet k done).lines
      = some done.length := by
    rw [show (filledSet k done).lines = done.map some ++ List.replicate (k - done.length) none
        from rfl,
      listPos_append_none_left _ _ _ (by
        intro x hx
        obtain ⟨d, hd, rfl⟩ := List.mem_map.mp hx
        simp),
      hrep]
    simp [listPos]
  rw [CacheSet.access_free_of _ _ _ (filledSet_no_hit k done t hnd) hfree]
  have hsetlen : (done.map some ++ List.replicate (k - done.length) none).set done.length (some t)
      = done.map some ++ (List.replicate (k - done.length) none).set 0 (some t) := by
    have := set_append_length (done.map some) (List.replicate (k - done.length) none) (some t)
    simpa using this
  have hlines : (filledSet k done).lines.set done.length (some t)
      = (done ++ [t]).map some ++ List.replicate (k - (done ++ [t]).length) none := by
    rw [show (filledSet k done).lines = done.map some ++ List.replicate (k - done.length) none
        from rfl, hsetlen, hrep]
    simp [List.set, List.map_append, List.append_assoc, Nat.sub_sub]
  have hlru : (filledSet k done).lru_order ++ [done.length] = List.range (done ++ [t]).length := by
    rw [show (filledSet k done).lru_order = List.range done.length from rfl,
      List.length_append, List.length_singleton, List.range_succ]
  rw [show filledSet k (done ++ [t])
      = (⟨(done ++ [t]).map some ++ List.replicate (k - (done ++ [t]).length) none,
          List.range (done ++ [t]).length⟩ : CacheSet) from rfl,
    ← hlines, ← hlru]

theorem accessSeq_filledSet (k : Nat) (rest : List Nat) : ∀ (done : List Nat),
    (done ++ rest).Nodup → done.length + rest.length ≤ k →
    (filledSet k done).accessSeq rest
      = some (List.replicate rest.length false, filledSet k (done ++ rest)) := by
  induction rest with
  | nil =>
    intro done _ _
    simp [CacheSet.accessSeq]
  | cons t ts ih =>
    intro done hnd hlen
    have ht : t ∉ done := by
      intro hmem
      exact (List.nodup_append.mp hnd).2.2 hmem (List.mem_cons_self t ts)
    have hlt : done.length < k := by
      simp only [List.length_cons] at hlen
      omega
    rw [CacheSet.accessSeq, access_filledSet k done t ht hlt]
    dsimp only
    have hnd' : ((done ++ [t]) ++ ts).Nodup := by
      simpa [List.append_assoc] using hnd
    have hlen' : (done ++ [t]).length + ts.length ≤ k := by
      simp only [List.length_append, List.length_cons, List.length_nil] at hlen ⊢
      omega
    rw [ih (done ++ [t]) hnd' hlen']
    simp [List.append_assoc, List.replicate_succ]

/-- A miss that must evict: both position scans fail and the LRU order is
nonempty, so the front slot is overwritten. -/
theorem access_miss_exists (s : CacheSet) (t : Nat)
    (h1 : listPos (fun line => decide (line = some t)) s.lines = none)
    (h2 : listPos (fun line => decide (line = none)) s.lines = none)
    (h3 : s.lru_order ≠ []) : ∃ s2, s.access t = some (false, s2) := by
  match hl : s.lru_order with
  | [] => exact absurd hl h3
  | e :: rest => exact ⟨_, CacheSet.access_evict_of s t e rest h1 h2 hl⟩

theorem access_then_hit (s : CacheSet) (t : Nat) (b : Bool) (s1 : CacheSet)
    (hwf : ∀ j ∈ s.lru_order, j < s.lines.length)
    (h : s.access t = some (b, s1)) : ∃ s2, s1.access t = some (true, s2) := by
  have key : ∀ s2 : CacheSet,
      (∃ i, listPos (fun line => decide (line = some t)) s2.lines = some i)
      → ∃ s3, s2.access t = some (true, s3) := by
    intro s2 hi
    obtain ⟨i, hi⟩ := hi
    exact ⟨_, CacheSet.access_hit_of s2 t i hi⟩
  have mem_of_set : ∀ (lines : List (Option Nat)) (j : Nat), j < lines.length →
      ∃ i, listPos (fun line => decide (line = some t)) (lines.set j (some t)) = some i := by
    intro lines j hj
    have hget : (lines.set j (some t)).get? j = some (some t) := by
      rw [List.get?_set_eq]
      rcases hx : lines.get? j with _ | a
      · exact absurd (List.get?_eq_none.mp hx) (by omega)
      · rfl
    exact listPos_of_mem _ _ (some t) (List.get?_mem hget) (by simp)
  rw [CacheSet.access] at h
  rcases hpos : listPos (fun line => decide (line = some t)) s.lines with _ | pos
  · rw [hpos] at h
    rcases hfree : listPos (fun line => decide (line = none)) s.lines with _ | free_pos
    · rw [hfree] at h
      match hl : s.lru_order, h with
      | e :: rest, h =>
        cases h
        exact key _ (mem_of_set s.lines e (hwf e (by rw [hl]; exact List.mem_cons_self e rest)))
    · rw [hfree] at h
      cases h
      have hflt : free_pos < s.lines.length := by
        obtain ⟨x, hx, _⟩ := listPos_some_get _ _ _ hfree
        exact (List.get?_eq_some.mp hx).1
      exact key _ (mem_of_set s.lines free_pos hflt)
  · rw [hpos] at h
    cases h
    exact key _ ⟨pos, hpos⟩

/-- C5: for a cache set of associativity `k` starting empty
(`CacheSet::new` of src/bin/cache.rs): (i) a run of at most `k` distinct
tags misses on every access and fills the slots in order; (ii) after any
non-panicking access to tag `t` (from any state whose LRU indices are in
range), an immediate re-access of `t` hits; (iii) after `k + 1` distinct
tags from empty — all misses, hence no intervening hits — the first tag has
been evicted, so re-accessing it misses. -/
theorem c5_cache_lru_correctness :
    (∀ (k : Nat) (tags : List Nat), tags.Nodup → tags.length ≤ k →
      (CacheSet.new k).accessSeq tags
        = some (List.replicate tags.length false, filledSet k tags))
    ∧ (∀ (s : CacheSet) (t : Nat) (b : Bool) (s1 : CacheSet),
        (∀ j ∈ s.lru_order, j < s.lines.length) →
        s.access t = some (b, s1) → ∃ s2, s1.access t = some (true, s2))
    ∧ (∀ (first last : Nat) (mid : List Nat),
        (first :: (mid ++ [last])).Nodup →
        ∃ s1 s2, (CacheSet.new (mid.length + 1)).accessSeq (first :: (mid ++ [last]))
            = some (List.replicate (mid.length + 1 + 1) false, s1)
          ∧ s1.access first = some (false, s2)) := by
  refine ⟨?_, access_then_hit, ?_⟩
  · intro k tags hnd hlen
    rw [← filledSet_nil k]
    simpa using accessSeq_filledSet k tags [] (by simpa using hnd) (by simpa using hlen)
  · intro first last mid hnd
    have hinit : ((first :: mid) ++ [last]).Nodup := by simpa using hnd
    have hnd1 : (first :: mid).Nodup := (List.nodup_append.mp hinit).1
    have hdisj := (List.nodup_append.mp hinit).2.2
    have hseq1 : (CacheSet.new (mid.length + 1)).accessSeq (first :: mid)
        = some (List.replicate (mid.length + 1) false,
            filledSet (mid.length + 1) (first :: mid)) := by
      rw [← filledSet_nil (mid.length + 1)]
      have := accessSeq_filledSet (mid.length + 1) (first :: mid) []
        (by simpa using hnd1) (by simp)
      simpa using this
    have hfull : (filledSet (mid.length + 1) (first :: mid)).lines
        = List.map some (first :: mid) := by
      simp [filledSet]
    have hnohit : listPos (fun line => decide (line = some last))
        (filledSet (mid.length + 1) (first :: mid)).lines = none := by
      apply filledSet_no_hit
      intro hmem
      exact hdisj hmem (List.mem_singleton.mpr rfl)
    have hnofree : listPos (fun line => decide (line = none))
        (filledSet (mid.length + 1) (first :: mid)).lines = none := by
      rw [hfull]
      apply listPos_eq_none
      intro x hx
      obtain ⟨d, _, rfl⟩ := List.mem_map.mp hx
      simp
    have hlru : (filledSet (mid.length + 1) (first :: mid)).lru_order
        = 0 :: List.map Nat.succ (List.range mid.length) := by
      rw [show (filledSet (mid.length + 1) (first :: mid)).lru_order
          = List.range (first :: mid).length from rfl]
      simp [List.range_succ_eq_map]
    have hevict := CacheSet.access_evict_of (filledSet (mid.length + 1) (first :: mid)) last 0
      (List.map Nat.succ (List.range mid.length)) hnohit hnofree hlru
    have hseq : (CacheSet.new (mid.length + 1)).accessSeq ((first :: mid) ++ [last])
        = some (List.replicate (mid.length + 1 + 1) false,
            ⟨(filledSet (mid.length + 1) (first :: mid)).lines.set 0 (some last),
              List.map Nat.succ (List.range mid.length) ++ [0]⟩) := by
      rw [accessSeq_append, hseq1]
      dsimp only
      rw [show (filledSet (mid.length + 1) (first :: mid)).accessSeq [last]
          = some ([false],
              ⟨(filledSet (mid.length + 1) (first :: mid)).lines.set 0 (some last),
                List.map Nat.succ (List.range mid.length) ++ [0]⟩) from by
        rw [CacheSet.accessSeq, hevict]
        rfl]
      dsimp only
      rw [show List.replicate (mid.length + 1 + 1) false
          = List.replicate (mid.length + 1) false ++ [false] from List.replicate_succ' _ _]
    have hs1lines : ((⟨(filledSet (mid.length + 1) (first :: mid)).lines.set 0 (some last),
        List.map Nat.succ (List.range mid.length) ++ [0]⟩ : CacheSet)).lines
        = some last :: mid.map some := by
      rw [show ((⟨(filledSet (mid.length + 1) (first :: mid)).lines.set 0 (some last),
          List.map Nat.succ (List.range mid.length) ++ [0]⟩ : CacheSet)).lines
          = (filledSet (mid.length + 1) (first :: mid)).lines.set 0 (some last) from rfl,
        hfull]
      rfl
    have hnohit1 : listPos (fun line => decide (line = some first))
        ((⟨(filledSet (mid.length + 1) (first :: mid)).lines.set 0 (some last),
          List.map Nat.succ (List.range mid.length) ++ [0]⟩ : CacheSet)).lines = none := by
      rw [hs1lines]
      apply listPos_eq_none
      intro x hx
      rcases List.mem_cons.mp hx with rfl | hx
      · simp only [decide_eq_false_iff_not]
        intro hco
        cases hco
        exact hdisj (List.mem_cons_self _ _) (List.mem_singleton.mpr rfl)
      · obtain ⟨d, hd, rfl⟩ := List.mem_map.mp hx
        simp only [decide_eq_false_iff_not]
        intro hco
        cases hco
        exact (List.nodup_cons.mp hnd1).1 hd
    have hnofree1 : listPos (fun line => decide (line = none))
        ((⟨(filledSet (mid.length + 1) (first :: mid)).lines.set 0 (some last),
          List.map Nat.succ (List.range mid.length) ++ [0]⟩ : CacheSet)).lines = none := by
      rw [hs1lines]
      apply listPos_eq_none
      intro x hx
      rcases List.mem_cons.mp hx with rfl | hx
      · simp
      · obtain ⟨d, _, rfl⟩ := List.mem_map.mp hx
        simp
    obtain ⟨s2, hs2⟩ := access_miss_exists _ first hnohit1 hnofree1 (by simp)
    exact ⟨_, s2, hseq, hs2⟩

/-- Witness for C5 at associativity 2 with tags 1, 2, 3. -/
theorem c5_cache_lru_correctness_witness :
    (CacheSet.new 2).accessSeq [1, 2]
      = some (List.replicate 2 false, filledSet 2 [1, 2])
    ∧ (∃ s2, (filledSet 1 [5]).access 5 = some (true, s2))
    ∧ (∃ s1 s2, (CacheSet.new 2).accessSeq [1, 2, 3]
        = some (List.replicate 3 false, s1) ∧ s1.access 1 = some (false, s2)) :=
  ⟨c5_cache_lru_correctness.1 2 [1, 2] (by decide) (by decide),
    c5_cache_lru_correctness.2.1 (CacheSet.new 1) 5 false (filledSet 1 [5])
      (by decide) (by decide),
    c5_cache_lru_correctness.2.2 1 3 [2] (by decide)⟩

theorem setInv_new (k : Nat) : SetInv (CacheSet.new k) := by
  constructor
  · exact List.nodup_nil
  · intro j
    constructor
    · intro h
      cases h
    · rintro ⟨t, ht⟩
      have := List.get?_mem ht
      have := List.eq_of_mem_replicate this
      cases this

theorem setInv_access (s : CacheSet) (t : Nat) (b : Bool) (s1 : CacheSet)
    (hinv : SetInv s) (h : s.access t = some (b, s1)) : SetInv s1 := by
  obtain ⟨hnd, hiff⟩ := hinv
  rw [CacheSet.access] at h
  rcases hpos : listPos (fun line => decide (line = some t)) s.lines with _ | pos
  · rw [hpos] at h
    rcases hfree : listPos (fun line => decide (line = none)) s.lines with _ | free_pos
    · rw [hfree] at h
      match hl : s.lru_order, h with
      | e :: rest, h =>
        cases h
        rw [hl] at hnd
        have he_mem : e ∈ s.lru_order := by rw [hl]; exact List.mem_cons_self e rest
        obtain ⟨te, hte⟩ := (hiff e).mp he_mem
        have helt : e < s.lines.length := (List.get?_eq_some.mp hte).1
        constructor
        · rw [List.nodup_append]
          exact ⟨(List.nodup_cons.mp hnd).2, List.nodup_singleton e,
            fun j hj hj' => (List.nodup_cons.mp hnd).1
              (by rwa [List.mem_singleton.mp hj'] at hj)⟩
        · intro j
          rw [List.mem_append, List.mem_singleton]
          by_cases hje : j = e
          · subst hje
            constructor
            · intro _
              refine ⟨t, ?_⟩
              rw [List.get?_set_eq, hte]
              rfl
            · intro _
              exact Or.inr rfl
          · rw [List.get?_set_ne _ _ (Ne.symm hje)]
            constructor
            · intro hj
              rcases hj with hj | hj
              · exact (hiff j).mp (by rw [hl]; exact List.mem_cons_of_mem e hj)
              · exact absurd hj hje
            · intro hj
              have := (hiff j).mpr hj
              rw [hl] at this
              rcases List.mem_cons.mp this with rfl | hmem
              · exact absurd rfl hje
              · exact Or.inl hmem
    · rw [hfree] at h
      cases h
      obtain ⟨x, hx, hxp⟩ := listPos_some_get _ _ _ hfree
      have hxnone : x = none := by simpa using hxp
      subst hxnone
      have hflt : free_pos < s.lines.length := (List.get?_eq_some.mp hx).1
      have hfnotin : free_pos ∉ s.lru_order := by
        intro hmem
        obtain ⟨tf, htf⟩ := (hiff free_pos).mp hmem
        rw [hx] at htf
        cases htf
      constructor
      · rw [List.nodup_append]
        exact ⟨hnd, List.nodup_singleton _,
          fun j hj hj' => hfnotin (by rwa [← List.mem_singleton.mp hj'])⟩
      · intro j
        rw [List.mem_append, List.mem_singleton]
        by_cases hjf : j = free_pos
        · subst hjf
          constructor
          · intro _
            refine ⟨t, ?_⟩
            rw [List.get?_set_eq, hx]
            rfl
          · intro _
            exact Or.inr rfl
        · rw [List.get?_set_ne _ _ (Ne.symm hjf)]
          constructor
          · intro hj
            rcases hj with hj | hj
            · exact (hiff j).mp hj
            · exact absurd hj hjf
          · intro hj
            exact Or.inl ((hiff j).mpr hj)
  · rw [hpos] at h
    cases h
    obtain ⟨x, hx, hxp⟩ := listPos_some_get _ _ _ hpos
    have hxt : x = some t := by simpa using hxp
    subst hxt
    constructor
    · rw [List.nodup_append]
      refine ⟨hnd.filter _, List.nodup_singleton _, fun j hj hj' => ?_⟩
      have := (List.mem_filter.mp hj).2
      rw [List.mem_singleton.mp hj'] at this
      simp at this
    · intro j
      rw [List.mem_append, List.mem_singleton, List.mem_filter]
      by_cases hjp : j = pos
      · subst hjp
        constructor
        · intro _
          exact ⟨t, hx⟩
        · intro _
          exact Or.inr rfl
      · constructor
        · intro hj
          rcases hj with ⟨hj, _⟩ | hj
          · exact (hiff j).mp hj
          · exact absurd hj hjp
        · intro hj
          exact Or.inl ⟨(hiff j).mpr hj, by simpa using hjp⟩

theorem setInv_invalidate (s : CacheSet) (tag : Nat) (hinv : SetInv s) :
    SetInv (s.invalidate tag) := by
  obtain ⟨hnd, hiff⟩ := hinv
  rw [CacheSet.invalidate]
  rcases hpos : listPos (fun line => decide (line = some tag)) s.lines with _ | pos
  · exact ⟨hnd, hiff⟩
  · obtain ⟨x, hx, hxp⟩ := listPos_some_get _ _ _ hpos
    have hxt : x = some tag := by simpa using hxp
    subst hxt
    dsimp only
    constructor
    · exact hnd.filter _
    · intro j
      rw [List.mem_filter]
      by_cases hjp : j = pos
      · subst hjp
        simp only [List.get?_set_eq, hx]
        constructor
        · intro ⟨_, hco⟩
          simp at hco
        · rintro ⟨t, ht⟩
          simp at ht
      · rw [List.get?_set_ne _ _ (Ne.symm hjp)]
        constructor
        · intro ⟨hj, _⟩
          exact (hiff j).mp hj
        · intro hj
          exact ⟨(hiff j).mpr hj, by simpa using hjp⟩

theorem cacheInv_invalidateBlock (c : Cache) (b : Nat)
    (hinv : ∀ s ∈ c.sets, SetInv s) : ∀ s ∈ (c.invalidateBlock b).sets, SetInv s := by
  simp only [Cache.invalidateBlock]
  rcases hget : c.sets.get? (b % c.sets.length) with _ | s0
  · exact hinv
  · intro x hx
    rcases List.mem_or_eq_of_mem_set hx with hx | rfl
    · exact hinv x hx
    · exact setInv_invalidate s0 b (hinv s0 (List.get?_mem hget))

theorem cacheInv_foldInvalidate (blocks : List Nat) : ∀ (c : Cache),
    (∀ s ∈ c.sets, SetInv s) → ∀ s ∈ (blocks.foldl Cache.invalidateBlock c).sets, SetInv s := by
  induction blocks with
  | nil => exact fun c hinv => hinv
  | cons b bs ih =>
    intro c hinv
    exact ih (c.invalidateBlock b) (cacheInv_invalidateBlock c b hinv)

theorem cacheInv_reachable (c : Cache) (h : CacheReachable c) : ∀ s ∈ c.sets, SetInv s := by
  induction h with
  | base size block_size assoc =>
    intro s hs
    rw [List.eq_of_mem_replicate hs]
    exact setInv_new assoc
  | step_access c a b c2 _ hacc ih =>
    simp only [Cache.access] at hacc
    split at hacc
    · cases hacc
    · rcases hget : c.sets.get? (a / c.block_size % c.sets.length) with _ | s0
      · rw [hget] at hacc
        cases hacc
      · rw [hget, Option.map_eq_some'] at hacc
        obtain ⟨p, hsacc, heq⟩ := hacc
        cases heq
        dsimp only
        intro x hx
        rcases List.mem_or_eq_of_mem_set hx with hx | rfl
        · exact ih x hx
        · exact setInv_access s0 _ p.1 p.2 (ih s0 (List.get?_mem hget)) (by rw [hsacc])
  | step_invalidate c a c2 _ hpage ih =>
    simp only [Cache.invalidate_page] at hpage
    split at hpage
    · cases hpage
    · split at hpage
      · cases hpage
      · cases hpage
        exact cacheInv_foldInvalidate _ c ih

/-- C8: in every cache state reachable from a fresh `Cache::new` of
src/bin/cache.rs by any sequence of (non-panicking) `access` and
`invalidate_page` operations, every set's LRU order is duplicate-free and
contains exactly the occupied slot indices — a permutation of the occupied
slots, with no free slot listed; and the invariant already holds for the
initial all-free set. -/
theorem c8_lru_permutation_invariant :
    (∀ k, SetInv (CacheSet.new k))
    ∧ (∀ c, CacheReachable c → ∀ s ∈ c.sets, SetInv s) :=
  ⟨setInv_new, cacheInv_reachable⟩

/-- Witness for C8: the concrete cache state reached from a fresh
256 B / 64 B / 2-way cache by one access satisfies the invariant for its
updated set. -/
theorem c8_lru_permutation_invariant_witness :
    SetInv (⟨[some 0, none], [0]⟩ : CacheSet) :=
  c8_lru_permutation_invariant.2
    (⟨64, [⟨[some 0, none], [0]⟩, CacheSet.new 2]⟩ : Cache)
    (CacheReachable.step_access (Cache.new 256 64 2) 0 false _
      (CacheReachable.base 256 64 2) (by decide))
    (⟨[some 0, none], [0]⟩ : CacheSet) (by decide)

theorem slotTagged_of_get (lines : List (Option Nat)) (tbs : List Nat) (j d : Nat)
    (h : lines.get? j = some (some d)) : slotTagged lines tbs j = decide (d ∈ tbs) := by
  unfold slotTagged
  rw [h]

theorem slotTagged_of_none (lines : List (Option Nat)) (tbs : List Nat) (j : Nat)
    (h : lines.get? j = none) : slotTagged lines tbs j = false := by
  unfold slotTagged
  rw [h]

theorem slotTagged_of_free (lines : List (Option Nat)) (tbs : List Nat) (j : Nat)
    (h : lines.get? j = some none) : slotTagged lines tbs j = false := by
  unfold slotTagged
  rw [h]

theorem slotInPage_of_get (bs P : Nat) (lines : List (Option Nat)) (j d : Nat)
    (h : lines.get? j = some (some d)) :
    slotInPage bs P lines j = decide (P ≤ d * bs ∧ d * bs < P + 4096) := by
  unfold slotInPage
  rw [h]

theorem slotInPage_of_none (bs P : Nat) (lines : List (Option Nat)) (j : Nat)
    (h : lines.get? j = none) : slotInPage bs P lines j = false := by
  unfold slotInPage
  rw [h]

theorem slotInPage_of_free (bs P : Nat) (lines : List (Option Nat)) (j : Nat)
    (h : lines.get? j = some none) : slotInPage bs P lines j = false := by
  unfold slotInPage
  rw [h]

theorem invalidate_char (s : CacheSet) (b : Nat) (hnd : NoDupTags s) :
    s.invalidate b = ⟨s.lines.map (clearTag [b]),
      s.lru_order.filter (fun j => ! slotTagged s.lines [b] j)⟩ := by
  rw [CacheSet.invalidate]
  rcases hpos : listPos (fun line => decide (line = some b)) s.lines with _ | pos
  · have hall := listPos_none_forall _ _ hpos
    have hlines : s.lines.map (clearTag [b]) = s.lines := by
      rw [show s.lines = s.lines.map id by rw [List.map_id]]
      rw [List.map_map]
      apply List.map_congr_left
      intro x hx
      have hxb := hall x (by simpa using hx)
      match x, hxb with
      | some d, hd =>
        have hdb : ¬ d = b := by
          intro hco
          subst hco
          simp at hd
        simp [clearTag, hdb]
      | none, _ => rfl
    have hlru : s.lru_order.filter (fun j => ! slotTagged s.lines [b] j) = s.lru_order := by
      rw [show s.lru_order = s.lru_order.filter (fun x => true) from (List.filter_true _).symm]
      rw [List.filter_filter]
      apply List.filter_congr
      intro j _
      rcases hj : s.lines.get? j with _ | x
      · simp [slotTagged_of_none _ _ _ hj]
      · match x, hj with
        | none, hj => simp [slotTagged_of_free _ _ _ hj]
        | some d, hj =>
          have hdm := hall (some d) (List.get?_mem hj)
          have hdb : ¬ d = b := by
            intro hco
            subst hco
            simp at hdm
          simp [slotTagged_of_get _ _ _ _ hj, hdb]
    rw [hlines, hlru]
  · obtain ⟨x, hx, hxp⟩ := listPos_some_get _ _ _ hpos
    have hxt : x = some b := by simpa using hxp
    subst hxt
    dsimp only
    have hlines : s.lines.set pos none = s.lines.map (clearTag [b]) := by
      apply List.ext_get?
      intro n
      rw [List.get?_map]
      by_cases hnp : n = pos
      · subst hnp
        rw [List.get?_set_eq, hx]
        simp [clearTag]
      · rw [List.get?_set_ne _ _ (Ne.symm hnp)]
        rcases hn : s.lines.get? n with _ | y
        · rfl
        · match y, hn with
          | none, hn => rfl
          | some d, hn =>
            have hdb : ¬ d = b := by
              intro hco
              subst hco
              exact hnp (hnd n pos d hn hx)
            simp [clearTag, hdb]
    have hlru : s.lru_order.filter (fun i => decide (i ≠ pos))
        = s.lru_order.filter (fun j => ! slotTagged s.lines [b] j) := by
      apply List.filter_congr
      intro j _
      by_cases hjp : j = pos
      · subst hjp
        simp [slotTagged_of_get _ _ _ _ hx]
      · rcases hj : s.lines.get? j with _ | y
        · simp [slotTagged_of_none _ _ _ hj, hjp]
        · match y, hj with
          | none, hj => simp [slotTagged_of_free _ _ _ hj, hjp]
          | some d, hj =>
            have hdb : ¬ d = b := by
              intro hco
              subst hco
              exact hjp (hnd j pos d hj hx)
            simp [slotTagged_of_get _ _ _ _ hj, hjp, hdb]
    rw [hlines, hlru]

theorem clearTag_eq_some (tbs : List Nat) (o : Option Nat) (t : Nat)
    (h : clearTag tbs o = some t) : o = some t := by
  match o with
  | none => cases h
  | some d =>
    by_cases hdm : d ∈ tbs
    · rw [show clearTag tbs (some d) = none from by simp [clearTag, hdm]] at h
      cases h
    · rw [show clearTag tbs (some d) = some d from by simp [clearTag, hdm]] at h
      exact h

theorem clearTag_comp (b : Nat) (bs : List Nat) (o : Option Nat) :
    clearTag bs (clearTag [b] o) = clearTag (b :: bs) o := by
  match o with
  | none => rfl
  | some d =>
    by_cases hdb : d = b
    · subst hdb
      simp [clearTag]
    · by_cases hdbs : d ∈ bs <;> simp [clearTag, hdb, hdbs]

theorem slotTagged_cons (lines : List (Option Nat)) (b : Nat) (bs : List Nat) (j : Nat) :
    ((!slotTagged (lines.map (clearTag [b])) bs j) && (!slotTagged lines [b] j))
      = !slotTagged lines (b :: bs) j := by
  rcases hj : lines.get? j with _ | x
  · have h1 : (lines.map (clearTag [b])).get? j = none := by
      rw [List.get?_map, hj]
      rfl
    rw [slotTagged_of_none _ _ _ h1, slotTagged_of_none _ _ _ hj, slotTagged_of_none _ _ _ hj]
    rfl
  · match x, hj with
    | none, hj =>
      have h1 : (lines.map (clearTag [b])).get? j = some none := by
        rw [List.get?_map, hj]
        rfl
      rw [slotTagged_of_free _ _ _ h1, slotTagged_of_free _ _ _ hj, slotTagged_of_free _ _ _ hj]
      rfl
    | some d, hj =>
      by_cases hdb : d = b
      · have h1 : (lines.map (clearTag [b])).get? j = some none := by
          rw [List.get?_map, hj]
          simp [clearTag, hdb]
        rw [slotTagged_of_free _ _ _ h1, slotTagged_of_get _ _ _ _ hj,
          slotTagged_of_get _ _ _ _ hj]
        simp [hdb]
      · have h1 : (lines.map (clearTag [b])).get? j = some (some d) := by
          rw [List.get?_map, hj]
          simp [clearTag, hdb]
        rw [slotTagged_of_get _ _ _ _ h1, slotTagged_of_get _ _ _ _ hj,
          slotTagged_of_get _ _ _ _ hj]
        simp [hdb]

theorem noDupTags_clear (s : CacheSet) (tbs : List Nat) (lru2 : List Nat) (hnd : NoDupTags s) :
    NoDupTags ⟨s.lines.map (clearTag tbs), lru2⟩ := by
  intro j1 j2 t h1 h2
  simp only [List.get?_map] at h1 h2
  rw [Option.map_eq_some'] at h1 h2
  obtain ⟨o1, ho1, hc1⟩ := h1
  obtain ⟨o2, ho2, hc2⟩ := h2
  rw [clearTag_eq_some _ _ _ hc1] at ho1
  rw [clearTag_eq_some _ _ _ hc2] at ho2
  exact hnd j1 j2 t ho1 ho2

theorem foldInvalidate_char (tbs : List Nat) : ∀ (s : CacheSet), NoDupTags s →
    tbs.foldl CacheSet.invalidate s
      = ⟨s.lines.map (clearTag tbs),
          s.lru_order.filter (fun j => ! slotTagged s.lines tbs j)⟩ := by
  induction tbs with
  | nil =>
    intro s _
    have hlines : s.lines.map (clearTag []) = s.lines := by
      have h := List.map_congr_left (l := s.lines) (f := clearTag []) (g := id)
        (fun x _ => by cases x <;> rfl)
      rw [h, List.map_id]
    have hlru : s.lru_order.filter (fun j => ! slotTagged s.lines [] j) = s.lru_order := by
      have h := List.filter_congr (l := s.lru_order)
        (p := fun j => ! slotTagged s.lines [] j) (q := fun x => true) ?_
      · rw [h, List.filter_true]
      · intro j _
        rcases hj : s.lines.get? j with _ | x
        · simp [slotTagged_of_none _ _ _ hj]
        · match x, hj with
          | none, hj => simp [slotTagged_of_free _ _ _ hj]
          | some d, hj => simp [slotTagged_of_get _ _ _ _ hj]
    rw [List.foldl_nil, hlines, hlru]
  | cons b bs ih =>
    intro s hnd
    rw [List.foldl_cons, invalidate_char s b hnd,
      ih _ (noDupTags_clear s [b] _ hnd)]
    have hlines : (s.lines.map (clearTag [b])).map (clearTag bs)
        = s.lines.map (clearTag (b :: bs)) := by
      rw [List.map_map]
      exact List.map_congr_left (fun x _ => clearTag_comp b bs x)
    have hlru : (s.lru_order.filter (fun j => ! slotTagged s.lines [b] j)).filter
          (fun j => ! slotTagged (s.lines.map (clearTag [b])) bs j)
        = s.lru_order.filter (fun j => ! slotTagged s.lines (b :: bs) j) := by
      rw [List.filter_filter]
      exact List.filter_congr (fun j _ => slotTagged_cons s.lines b bs j)
    rw [hlines, hlru]

theorem invalidateBlock_dims (c : Cache) (b : Nat) :
    (c.invalidateBlock b).block_size = c.block_size
    ∧ (c.invalidateBlock b).sets.length = c.sets.length := by
  simp only [Cache.invalidateBlock]
  rcases hget : c.sets.get? (b % c.sets.length) with _ | s0
  · exact ⟨rfl, rfl⟩
  · exact ⟨rfl, List.length_set _ _ _⟩

theorem foldInvalidateBlock_dims (blocks : List Nat) : ∀ (c : Cache),
    (blocks.foldl Cache.invalidateBlock c).block_size = c.block_size
    ∧ (blocks.foldl Cache.invalidateBlock c).sets.length = c.sets.length := by
  induction blocks with
  | nil => exact fun c => ⟨rfl, rfl⟩
  | cons b bs ih =>
    intro c
    rw [List.foldl_cons]
    exact ⟨(ih _).1.trans (invalidateBlock_dims c b).1,
      (ih _).2.trans (invalidateBlock_dims c b).2⟩

theorem foldInvalidateBlock_get (blocks : List Nat) : ∀ (c : Cache) (i : Nat) (s : CacheSet),
    c.sets.get? i = some s →
    (blocks.foldl Cache.invalidateBlock c).sets.get? i
      = some ((blocks.filter (fun b => decide (b % c.sets.length = i))).foldl
          CacheSet.invalidate s) := by
  induction blocks with
  | nil =>
    intro c i s hget
    simpa using hget
  | cons b bs ih =>
    intro c i s hget
    rw [List.foldl_cons]
    have hlen1 := (invalidateBlock_dims c b).2
    by_cases hbi : b % c.sets.length = i
    · have hc1 : (c.invalidateBlock b).sets.get? i = some (s.invalidate b) := by
        simp only [Cache.invalidateBlock, hbi, hget]
        rw [List.get?_set_eq, hget]
        rfl
      rw [ih (c.invalidateBlock b) i (s.invalidate b) hc1, hlen1,
        List.filter_cons_of_pos (by simp [hbi]), List.foldl_cons]
    · have hc1 : (c.invalidateBlock b).sets.get? i = some s := by
        simp only [Cache.invalidateBlock]
        rcases hg2 : c.sets.get? (b % c.sets.length) with _ | s0
        · exact hget
        · rw [List.get?_set_ne _ _ hbi]
          exact hget
      rw [ih (c.invalidateBlock b) i s hc1, hlen1,
        List.filter_cons_of_neg (by simp [hbi])]

theorem div_pred_succ (n k : Nat) (hn : 0 < n) (hk : 0 < k) :
    (n * k - 1) / n = k - 1 := by
  obtain ⟨j, rfl⟩ : ∃ j, k = j + 1 := ⟨k - 1, by omega⟩
  rw [Nat.mul_succ, show n * j + n - 1 = n * j + (n - 1) by omega,
    Nat.mul_add_div hn, Nat.div_eq_of_lt (by omega : n - 1 < n)]
  omega

/-- The block addresses iterated by `invalidate_page` are exactly the
blocks whose base byte address lies in the page `[P, P + 4096)`, provided
the block size is positive, divides the page size, and `P` is
page-aligned. -/
theorem pageBlocks_mem (bs P b : Nat) (hbs : 0 < bs) (hdvd : bs ∣ 4096)
    (halign : P % 4096 = 0) :
    (b ∈ List.range' (P / bs) ((P + 4096 - 1) / bs + 1 - P / bs))
      ↔ (P ≤ b * bs ∧ b * bs < P + 4096) := by
  have hdvdP : bs ∣ P := dvd_trans hdvd (Nat.dvd_of_mod_eq_zero halign)
  have hdvd2 : bs ∣ (P + 4096) := dvd_add hdvdP hdvd
  obtain ⟨K, hK⟩ := hdvd2
  have hKpos : 0 < K := by
    rcases Nat.eq_zero_or_pos K with h0 | h
    · rw [h0, Nat.mul_zero] at hK
      omega
    · exact h
  have hend : (P + 4096 - 1) / bs = K - 1 := by
    rw [show P + 4096 - 1 = bs * K - 1 by omega, div_pred_succ bs K hbs hKpos]
  have hstartK : P / bs ≤ K := by
    have h1 : P / bs ≤ (P + 4096) / bs := Nat.div_le_div_right (by omega)
    rwa [hK, Nat.mul_div_cancel_left K hbs] at h1
  rw [List.mem_range'_1, hend]
  have hsum : P / bs + (K - 1 + 1 - P / bs) = K := by omega
  rw [hsum]
  constructor
  · rintro ⟨h1, h2⟩
    constructor
    · have := Nat.mul_le_mul_right bs h1
      rwa [Nat.div_mul_cancel hdvdP] at this
    · have h3 : b + 1 ≤ K := h2
      have := Nat.mul_le_mul_right bs h3
      have h4 : (b + 1) * bs = b * bs + bs := by ring
      have h5 : K * bs = P + 4096 := by rw [hK]; ring
      omega
  · rintro ⟨h1, h2⟩
    constructor
    · have h3 : P / bs ≤ b * bs / bs := Nat.div_le_div_right h1
      rwa [Nat.mul_div_cancel b hbs] at h3
    · have h4 : bs * b < bs * K := by
        rw [Nat.mul_comm bs b, ← hK]
        omega
      exact Nat.lt_of_mul_lt_mul_left h4

/-- C6: `Cache::invalidate_page(P)` of src/bin/cache.rs, for a page-aligned
`P` on a cache with positive block size dividing the 4096-byte page and
with well-placed, duplicate-free tags (as in every reachable state): in
every set it clears exactly those entries whose tag is a block starting
inside `[P, P + 4096)` — each such slot becomes free and is removed from
the LRU order — and leaves every other entry, and the relative LRU order of
the surviving slots, unchanged; the cache geometry is unchanged.  Calling
it with a non-page-aligned address is a precondition failure (the
`assert!` fires, modelled as `none`). -/
theorem c6_invalidate_page_scoping (c : Cache) (P : Nat)
    (hbs : 0 < c.block_size) (hdvd : c.block_size ∣ 4096)
    (hplace : ∀ i s, c.sets.get? i = some s → ∀ j t, s.lines.get? j = some (some t) →
        t % c.sets.length = i)
    (hnodup : ∀ s ∈ c.sets, NoDupTags s) :
    (P % 4096 ≠ 0 → c.invalidate_page P = none)
    ∧ (P % 4096 = 0 →
        (c.invalidate_page P).map Cache.block_size = some c.block_size
        ∧ (c.invalidate_page P).map (fun c2 => c2.sets.length) = some c.sets.length
        ∧ (∀ i s, c.sets.get? i = some s →
            (c.invalidate_page P).map (fun c2 => c2.sets.get? i)
              = some (some ⟨s.lines.map (clearedLine c.block_size P),
                  s.lru_order.filter
                    (fun j => ! slotInPage c.block_size P s.lines j)⟩))) := by
  constructor
  · intro hna
    simp only [Cache.invalidate_page]
    rw [if_pos hna]
  · intro ha
    have hsome : c.invalidate_page P
        = some ((List.range' (P / c.block_size)
            ((P + 4096 - 1) / c.block_size + 1 - P / c.block_size)).foldl
              Cache.invalidateBlock c) := by
      simp only [Cache.invalidate_page]
      rw [if_neg (by simp [ha]), if_neg (by omega)]
    rw [hsome]
    refine ⟨by rw [Option.map_some', (foldInvalidateBlock_dims _ c).1],
      by rw [Option.map_some', (foldInvalidateBlock_dims _ c).2], ?_⟩
    intro i s hget
    rw [Option.map_some', foldInvalidateBlock_get _ c i s hget,
      foldInvalidate_char _ s (hnodup s (List.get?_mem hget))]
    have hmemiff : ∀ t, t % c.sets.length = i →
        ((t ∈ (List.range' (P / c.block_size)
            ((P + 4096 - 1) / c.block_size + 1 - P / c.block_size)).filter
              (fun b => decide (b % c.sets.length = i)))
          ↔ (P ≤ t * c.block_size ∧ t * c.block_size < P + 4096)) := by
      intro t hti
      rw [List.mem_filter]
      constructor
      · rintro ⟨hmem, _⟩
        exact (pageBlocks_mem c.block_size P t hbs hdvd ha).mp hmem
      · intro hin
        exact ⟨(pageBlocks_mem c.block_size P t hbs hdvd ha).mpr hin, by simp [hti]⟩
    have hlines : s.lines.map (clearTag
          ((List.range' (P / c.block_size)
            ((P + 4096 - 1) / c.block_size + 1 - P / c.block_size)).filter
              (fun b => decide (b % c.sets.length = i))))
        = s.lines.map (clearedLine c.block_size P) := by
      apply List.map_congr_left
      intro x hx
      match x with
      | none => rfl
      | some t =>
        obtain ⟨n, hn⟩ := List.mem_iff_get?.mp hx
        have hti := hplace i s hget n t hn
        have hiff := hmemiff t hti
        exact if_congr hiff rfl rfl
    have hlru : s.lru_order.filter (fun j => ! slotTagged s.lines
          ((List.range' (P / c.block_size)
            ((P + 4096 - 1) / c.block_size + 1 - P / c.block_size)).filter
              (fun b => decide (b % c.sets.length = i))) j)
        = s.lru_order.filter (fun j => ! slotInPage c.block_size P s.lines j) := by
      apply List.filter_congr
      intro j _
      rcases hj : s.lines.get? j with _ | x
      · rw [slotTagged_of_none _ _ _ hj, slotInPage_of_none _ _ _ _ hj]
      · match x, hj with
        | none, hj => rw [slotTagged_of_free _ _ _ hj, slotInPage_of_free _ _ _ _ hj]
        | some t, hj =>
          rw [slotTagged_of_get _ _ _ _ hj, slotInPage_of_get _ _ _ _ _ hj]
          have hti := hplace i s hget j t hj
          have hiff := hmemiff t hti
          exact congrArg (fun b => !b) (decide_eq_decide.mpr hiff)
    rw [hlines, hlru]

/-- Witness for C6: a one-set cache with block size 64 holding the tags 0
(block at byte 0, inside page 0) and 64 (the first block of the next page);
invalidating page 0 clears exactly the tag-0 entry, frees its slot, drops
it from the LRU order, and keeps the tag-64 entry with its LRU position. -/
theorem c6_invalidate_page_scoping_witness :
    ((⟨64, [⟨[some 0, some 64], [0, 1]⟩]⟩ : Cache).invalidate_page 0).map
        (fun c2 => c2.sets.get? 0)
      = some (some ⟨[none, some 64], [1]⟩) := by
  have h := ((c6_invalidate_page_scoping (⟨64, [⟨[some 0, some 64], [0, 1]⟩]⟩ : Cache) 0
      (by decide) (by decide)
      (by
        intro i s hget j t hline
        match i, hget with
        | 0, hget => exact Nat.mod_one t)
      (by
        intro s hs
        have hs2 := List.mem_singleton.mp hs
        subst hs2
        intro j1 j2 t h1 h2
        have hm : ∀ j u, (([some 0, some 64] : List (Option Nat)).get? j = some (some u)) →
            (j = 0 ∧ u = 0) ∨ (j = 1 ∧ u = 64) := by
          intro j u hj
          match j, hj with
          | 0, hj => exact Or.inl ⟨rfl, by cases hj; rfl⟩
          | 1, hj => exact Or.inr ⟨rfl, by cases hj; rfl⟩
        rcases hm j1 t h1 with ⟨h1a, h1b⟩ | ⟨h1a, h1b⟩ <;>
          rcases hm j2 t h2 with ⟨h2a, h2b⟩ | ⟨h2a, h2b⟩ <;> omega)).2 rfl).2.2
    0 ⟨[some 0, some 64], [0, 1]⟩ rfl
  rw [h]
  rfl

set_option maxRecDepth 100000 in
/-- C1 evaluation at the failing input: on the clean trace of `c1_trace`
(intent: 256 bytes from `0x1000` to `0x2000`; 32 loads then 32 stores of
size class 3), the detector emits one CopyRecord with the declared
`from`/`to` — but 31 of the 32 matched loads leak into the output as
regular accesses (every load after the first fails to match the `from`
cursor, which the cursor-initialization bug left at `(0x1000 + 1) << 3 =
0x8008`), refuting the claim that every matched load record is consumed. -/
theorem c1_detector_leaks_matched_loads :
    ((run_detector c1_trace c1_state).output.filter isRegularAccess).length = 31
    ∧ ((run_detector c1_trace c1_state).output.filter isRowcloneRecord)
        = [MemoryAccess.Rowclone ⟨1, 0x1000, 0x2000⟩]
    ∧ MemoryAccess.Regular ⟨2, 0x1008, false⟩ ∈ (run_detector c1_trace c1_state).output := by
  refine ⟨by decide, by decide, by decide⟩

/-- C7 evaluation at the failing input: a triggering load at `A = 0x1000`
with size class `s = 3` against the windowed intent opens a potential copy
whose `from`-side cursor is `(A + 1) << s = 0x8008` — Rust operator
precedence parses `mem_access.address + 1 << mem_access.size` as
`(address + 1) << size` — instead of at the access address advanced by the
access size, `A + 2^s = 0x1008` (the advance `update_copy` uses). -/
theorem c7_cursor_precedence_bug :
    (check_potential_copy_start ⟨1, 0, 0, 3, 0x1000⟩ [c1_intent] []).2
      = [⟨0, 1, 0x1000, 0x2000, 256, 0x8008, 0x2000⟩]
    ∧ (0x8008 : Nat) ≠ 0x1000 + 8 ∧ ¬ (0x8008 : Nat) ≤ 0x1000 + 8 := by
  refine ⟨by decide, by decide, by decide⟩
